import Mathlib

/-!
Verification development for the Neural-Network-In-C repository.

The C sources are shallowly embedded: dense row-major matrices become a
structure holding the flat buffer as a list of rationals (the 64-bit doubles
of the C code are modelled as exact rationals; the transcendental scalar
functions exp and tanh from libm are abstract parameters bundled in
FloatOps), fatal ASSERT failures become Option.none, and the string-keyed
matrix cache is embedded as the same 1024-bucket chained hash table the C
code builds.  Pointers are never NULL in the model except where a claim is
about NULL handling, in which case the embedded function takes Option
arguments mirroring the nullable C parameters.
-/

namespace NNC

/-- Dense row-major matrix, from linalg.h / linalg.c: fixed shape and a flat
buffer of rows*cols values (the buffer is a list; well-formedness of the
length is tracked by CMatrix.wf). -/
structure CMatrix where
  rows : Nat
  cols : Nat
  data : List ℚ
deriving DecidableEq, Repr

/-- Row-major element access m->matrix_data[i * m->cols + j]; reads outside
the buffer return a default 0 (the C code never performs them on
well-formed matrices). -/
def CMatrix.entry (m : CMatrix) (i j : Nat) : ℚ :=
  m.data.getD (i * m.cols + j) 0

/-- The allocation invariant of create_matrix: the flat buffer holds exactly
rows*cols values. -/
def CMatrix.wf (m : CMatrix) : Prop :=
  m.data.length = m.rows * m.cols

instance (m : CMatrix) : Decidable m.wf := by
  unfold CMatrix.wf
  infer_instance

/-- copy_matrix (linalg.c): memcpy of the rows*cols doubles into a fresh
buffer of the same shape. -/
def copy_matrix (m : CMatrix) : CMatrix :=
  { rows := m.rows, cols := m.cols
    data := (List.range (m.rows * m.cols)).map (fun idx => m.data.getD idx 0) }

/-- Shared shape of every elementwise loop in operations.c / activation.c:
a fresh rows*cols buffer with f applied at every flat index. -/
def mapElems (f : ℚ → ℚ) (m : CMatrix) : CMatrix :=
  { rows := m.rows, cols := m.cols
    data := (List.range (m.rows * m.cols)).map (fun idx => f (m.data.getD idx 0)) }

/-- subtract_matrix (operations.c): elementwise a - b; the dimension ASSERT
becomes none. -/
def subtract_matrix (a b : CMatrix) : Option CMatrix :=
  if a.rows = b.rows ∧ a.cols = b.cols then
    some { rows := a.rows, cols := a.cols
           data := (List.range (a.rows * a.cols)).map
             (fun idx => a.data.getD idx 0 - b.data.getD idx 0) }
  else none

/-- multiply_matrix (operations.c): elementwise (Hadamard) product; the
dimension ASSERT becomes none. -/
def multiply_matrix (a b : CMatrix) : Option CMatrix :=
  if a.rows = b.rows ∧ a.cols = b.cols then
    some { rows := a.rows, cols := a.cols
           data := (List.range (a.rows * a.cols)).map
             (fun idx => a.data.getD idx 0 * b.data.getD idx 0) }
  else none

/-- dot_matrix (operations.c): triple-nested-loop matrix product; the
incompatible-dimension ASSERT becomes none.  The inner loop accumulates
over k in increasing order starting from the zeroed result entry. -/
def dot_matrix (m1 m2 : CMatrix) : Option CMatrix :=
  if m1.cols = m2.rows then
    some { rows := m1.rows, cols := m2.cols
           data := (List.range (m1.rows * m2.cols)).map (fun idx =>
             (List.range m1.cols).foldl
               (fun acc k => acc + m1.entry (idx / m2.cols) k * m2.entry k (idx % m2.cols)) 0) }
  else none

/-- transpose_matrix (operations.c): result[j * result.cols + i] =
m[i * m.cols + j]. -/
def transpose_matrix (m : CMatrix) : CMatrix :=
  { rows := m.cols, cols := m.rows
    data := (List.range (m.cols * m.rows)).map
      (fun idx => m.entry (idx % m.rows) (idx / m.rows)) }

/-- add_bias_to_matrix (operations.c): adds the 1 x cols bias row to every
row; the two shape ASSERTs become none. -/
def add_bias_to_matrix (m bias : CMatrix) : Option CMatrix :=
  if bias.rows = 1 ∧ m.cols = bias.cols then
    some { rows := m.rows, cols := m.cols
           data := (List.range (m.rows * m.cols)).map
             (fun idx => m.data.getD idx 0 + bias.data.getD (idx % m.cols) 0) }
  else none

/-- sum_matrix_columns (operations.c): 1 x cols row vector of column sums,
each accumulated over the rows in increasing order. -/
def sum_matrix_columns (m : CMatrix) : CMatrix :=
  { rows := 1, cols := m.cols
    data := (List.range m.cols).map (fun j =>
      (List.range m.rows).foldl (fun s i => s + m.entry i j) 0) }

/-- The two libm scalar functions the activation library uses.  They are
abstract in the model: every theorem quantifies over them. -/
structure FloatOps where
  exp : ℚ → ℚ
  tanh : ℚ → ℚ

/-- sigmoid (activation.c): 1 / (1 + exp(-x)) elementwise. -/
def sigmoid (ops : FloatOps) (m : CMatrix) : CMatrix :=
  mapElems (fun x => 1 / (1 + ops.exp (-x))) m

/-- sigmoid_prime (activation.c): recomputes s = sigmoid(x) and returns
s * (1 - s) elementwise (the input is the pre-activation). -/
def sigmoid_prime (ops : FloatOps) (m : CMatrix) : CMatrix :=
  mapElems (fun x => (1 / (1 + ops.exp (-x))) * (1 - 1 / (1 + ops.exp (-x)))) m

/-- relu (activation.c): max(0, x) elementwise. -/
def relu (m : CMatrix) : CMatrix :=
  mapElems (fun x => if 0 < x then x else 0) m

/-- relu_prime (activation.c): 1 when x > 0 else 0. -/
def relu_prime (m : CMatrix) : CMatrix :=
  mapElems (fun x => if 0 < x then 1 else 0) m

/-- tanh_activation (activation.c): tanh elementwise. -/
def tanh_activation (ops : FloatOps) (m : CMatrix) : CMatrix :=
  mapElems (fun x => ops.tanh x) m

/-- tanh_prime (activation.c): 1 - tanh(x)^2 elementwise. -/
def tanh_prime (ops : FloatOps) (m : CMatrix) : CMatrix :=
  mapElems (fun x => 1 - ops.tanh x ^ 2) m

/-- leaky_relu (activation.c): x when x > 0 else alpha * x; the
alpha >= 0 ASSERT becomes none. -/
def leaky_relu (m : CMatrix) (leak_parameter : ℚ) : Option CMatrix :=
  if 0 ≤ leak_parameter then
    some (mapElems (fun x => if 0 < x then x else leak_parameter * x) m)
  else none

/-- leaky_relu_prime (activation.c): 1 when x > 0 else alpha; the
alpha >= 0 ASSERT becomes none. -/
def leaky_relu_prime (m : CMatrix) (leak_parameter : ℚ) : Option CMatrix :=
  if 0 ≤ leak_parameter then
    some (mapElems (fun x => if 0 < x then 1 else leak_parameter) m)
  else none

/-- sign_activation (activation.c): 1 / -1 / 0 by sign. -/
def sign_activation (m : CMatrix) : CMatrix :=
  mapElems (fun x => if 0 < x then 1 else if x < 0 then -1 else 0) m

/-- sign_prime (activation.c): the zero matrix (subgradient approximation). -/
def sign_prime (m : CMatrix) : CMatrix :=
  mapElems (fun _ => 0) m

/-- identity_activation (activation.c): copy_matrix of the input. -/
def identity_activation (m : CMatrix) : CMatrix :=
  copy_matrix m

/-- identity_prime (activation.c): the all-ones matrix of the same shape. -/
def identity_prime (m : CMatrix) : CMatrix :=
  mapElems (fun _ => 1) m

/-- hard_tanh (activation.c): clamp(x, -1, 1) elementwise. -/
def hard_tanh (m : CMatrix) : CMatrix :=
  mapElems (fun x => if 1 < x then 1 else if x < -1 then -1 else x) m

/-- hard_tanh_prime (activation.c): 1 on the open interval (-1, 1), else 0. -/
def hard_tanh_prime (m : CMatrix) : CMatrix :=
  mapElems (fun x => if -1 < x ∧ x < 1 then 1 else 0) m

/-- softmax (activation.c): row-wise numerically-stable softmax; the row max
is computed by scanning indices 1..cols-1 starting from entry 0, then each
entry is exp(x - max) / sum of the row's exp(x - max). -/
def softmax (ops : FloatOps) (m : CMatrix) : CMatrix :=
  { rows := m.rows, cols := m.cols
    data := (List.range (m.rows * m.cols)).map (fun idx =>
      let i := idx / m.cols
      let maxv := (List.range' 1 (m.cols - 1)).foldl
        (fun mv jj => if mv < m.entry i jj then m.entry i jj else mv) (m.entry i 0)
      let s := (List.range m.cols).foldl (fun acc jj => acc + ops.exp (m.entry i jj - maxv)) 0
      ops.exp (m.data.getD idx 0 - maxv) / s) }

/-- softmax_prime (activation.c): x * (1 - x) elementwise (the input is
expected to already be a softmax output). -/
def softmax_prime (m : CMatrix) : CMatrix :=
  mapElems (fun x => x * (1 - x)) m

/-! The closed activation enumeration of activation.h.  In C an enum value is
an int, so the model keeps the tag as a Nat with the declared values; any
other Nat is an unrecognized kind reaching the default switch branches. -/

/-- activation_function RELU (activation.h). -/
def RELU : Nat := 0
/-- activation_function SIGMOID (activation.h). -/
def SIGMOID : Nat := 1
/-- activation_function SOFTMAX (activation.h). -/
def SOFTMAX : Nat := 2
/-- activation_function TANH (activation.h). -/
def TANH : Nat := 3
/-- activation_function LEAKY_RELU (activation.h). -/
def LEAKY_RELU : Nat := 4
/-- activation_function SIGN (activation.h). -/
def SIGN : Nat := 5
/-- activation_function IDENTITY (activation.h). -/
def IDENTITY : Nat := 6
/-- activation_function HARD_TANH (activation.h). -/
def HARD_TANH : Nat := 7

/-- LossFunctionType MSE (loss.h). -/
def MSE : Nat := 0
/-- LossFunctionType CCE (loss.h). -/
def CCE : Nat := 1
/-- LossFunctionType MAE (loss.h). -/
def MAE : Nat := 2
/-- LossFunctionType BCE (loss.h). -/
def BCE : Nat := 3

/-! ### The string-keyed matrix cache (cache.c) -/

/-- One chained hash-table node (cache.c struct CacheEntry); the linked list
of a bucket is a List. -/
structure CacheEntry where
  key : String
  m : CMatrix
deriving DecidableEq, Repr

/-- HASH_MAP_SIZE (cache.c). -/
def HASH_MAP_SIZE : Nat := 1024

/-- The bucket array of cache.c struct Cache; create_cache makes it hold
exactly HASH_MAP_SIZE buckets. -/
structure Cache where
  entries : List (List CacheEntry)
deriving DecidableEq, Repr

/-- hash (cache.c): 64-bit polynomial rolling hash with multiplier 31 over
the key bytes, reduced modulo HASH_MAP_SIZE. -/
def hash (key : String) : Nat :=
  (key.data.foldl (fun h c => (h * 31 + c.toNat) % 2 ^ 64) 0) % HASH_MAP_SIZE

/-- create_cache (cache.c): all HASH_MAP_SIZE buckets empty. -/
def create_cache : Cache :=
  { entries := List.replicate HASH_MAP_SIZE [] }

/-- The bucket scan of cache_put (cache.c): walk the chain; at the first node
whose key matches (strcmp), replace the stored matrix in place (the C code
frees the old one); none when no node matches. -/
def bucket_replace (key : String) (m : CMatrix) : List CacheEntry → Option (List CacheEntry)
  | [] => none
  | e :: rest =>
    if e.key = key then some ({ key := e.key, m := m } :: rest)
    else
      match bucket_replace key m rest with
      | none => none
      | some r => some (e :: r)

/-- cache_put (cache.c): hash the key, scan the bucket, replace in place on a
key match, otherwise prepend a fresh node at the bucket head.  The C
early-returns on NULL arguments; NULL is not representable here, and the
cache takes the matrix as given (ownership transfer, no copy on put). -/
def cache_put (cache : Cache) (key : String) (m : CMatrix) : Cache :=
  let index := hash key
  let bucket := cache.entries.getD index []
  match bucket_replace key m bucket with
  | some b2 => { entries := cache.entries.set index b2 }
  | none => { entries := cache.entries.set index ({ key := key, m := m } :: bucket) }

/-- The bucket scan of cache_get (cache.c): first key match returns a deep
copy (copy_matrix) of the stored matrix; none at the end of the chain. -/
def bucket_find (key : String) : List CacheEntry → Option CMatrix
  | [] => none
  | e :: rest => if e.key = key then some (copy_matrix e.m) else bucket_find key rest

/-- cache_get (cache.c): NULL cache or NULL key returns NULL, otherwise the
bucket at hash(key) is scanned.  The nullable C pointer parameters are kept
as Option arguments because the NULL guard is part of the function. -/
def cache_get (cache : Option Cache) (key : Option String) : Option CMatrix :=
  match cache, key with
  | some cache, some key => bucket_find key (cache.entries.getD (hash key) [])
  | _, _ => none

/-! ### Network structures (neural_network.h) -/

/-- Layer (neural_network.h): weights D_in x D_out, bias 1 x D_out, the
activation tag and the leaky-ReLU parameter. -/
structure Layer where
  weights : CMatrix
  bias : CMatrix
  activation_type : Nat
  leak_parameter : ℚ
deriving DecidableEq, Repr

/-- NeuralNetwork (neural_network.h): the layer array (modelled as a list of
fully built layers), the stored num_layers count, and the cache. -/
structure NeuralNetwork where
  layers : List Layer
  num_layers : Nat
  cache : Cache

/-! ### Feedforward (feedforward.c) -/

/-- The activation switch of feedforward (feedforward.c lines 116-146),
dispatching on the layer's activation kind; unrecognized kinds warn and
fall back to the identity activation. -/
def feedforward_activation (ops : FloatOps) (layer : Layer) (z : CMatrix) : Option CMatrix :=
  match layer.activation_type with
  | 1 => some (sigmoid ops z)
  | 0 => some (relu z)
  | 3 => some (tanh_activation ops z)
  | 4 => leaky_relu z layer.leak_parameter
  | 5 => some (sign_activation z)
  | 6 => some (identity_activation z)
  | 7 => some (hard_tanh z)
  | 2 => some (softmax ops z)
  | _ => some (identity_activation z)

/-- The layer loop of feedforward (feedforward.c lines 95-159), iterating
over the given layer indices: shape ASSERTs become none, z and a are stored
under their keys as copies, and the running output is threaded forward. -/
def feedforward_loop (ops : FloatOps) (nn : NeuralNetwork) :
    List Nat → Cache → CMatrix → Option (Cache × CMatrix)
  | [], c, current => some (c, current)
  | i :: rest, c, current =>
    match nn.layers[i]? with
    | none => none
    | some layer =>
      if current.cols = layer.weights.rows then
        match dot_matrix current layer.weights with
        | none => none
        | some z_linear =>
          if z_linear.rows = current.rows ∧ z_linear.cols = layer.weights.cols then
            match add_bias_to_matrix z_linear layer.bias with
            | none => none
            | some z =>
              if z.rows = z_linear.rows ∧ z.cols = z_linear.cols then
                let c1 := cache_put c ("z_" ++ Nat.repr i) (copy_matrix z)
                match feedforward_activation ops layer z with
                | none => none
                | some a =>
                  if a.rows = z.rows ∧ a.cols = z.cols then
                    let c2 := cache_put c1 ("a_" ++ Nat.repr i) (copy_matrix a)
                    feedforward_loop ops nn rest c2 a
                  else none
              else none
          else none
      else none

/-- feedforward (feedforward.c): check the input against layer 0, copy the
input, store it under "input", then run the layer loop over indices
0 .. num_layers-1; returns the final cache state and the returned output
matrix. -/
def feedforward (ops : FloatOps) (nn : NeuralNetwork) (input : CMatrix) :
    Option (Cache × CMatrix) :=
  match nn.layers[0]? with
  | none => none
  | some layer0 =>
    if input.cols = layer0.weights.rows then
      let current := copy_matrix input
      let c := cache_put nn.cache "input" (copy_matrix current)
      feedforward_loop ops nn (List.range nn.num_layers) c current
    else none

/-! ### Backpropagation (backprop.c) -/

/-- SIZE_MAX, the wraparound sentinel of the backward loop. -/
def SIZE_MAX : Nat := 2 ^ 64 - 1

/-- activation_derivative_for_layer (backprop.c lines 30-54): the derivative
switch; note there is no SOFTMAX case, so a softmax layer reaches the
default branch (warning, identity derivative). -/
def activation_derivative_for_layer (ops : FloatOps) (layer : Layer) (z : CMatrix) :
    Option CMatrix :=
  match layer.activation_type with
  | 1 => some (sigmoid_prime ops z)
  | 0 => some (relu_prime z)
  | 3 => some (tanh_prime ops z)
  | 4 => leaky_relu_prime z layer.leak_parameter
  | 5 => some (sign_prime z)
  | 6 => some (identity_prime z)
  | 7 => some (hard_tanh_prime z)
  | _ => some (identity_prime z)

/-- One iteration of the hidden-layer loop of backpropagate (backprop.c
lines 106-138): fetch delta_{i+1} and W_{i+1}, propagate through the
transpose, fetch z_i, multiply with the layer's activation derivative and
store the result under delta_i. -/
def backprop_hidden_step (ops : FloatOps) (nn : NeuralNetwork) (i : Nat) (c : Cache) :
    Option Cache :=
  match cache_get (some c) (some ("delta_" ++ Nat.repr (i + 1))) with
  | none => none
  | some delta_next =>
    match nn.layers[i + 1]? with
    | none => none
    | some layer_next =>
      let W_next_T := transpose_matrix layer_next.weights
      match dot_matrix delta_next W_next_T with
      | none => none
      | some propagated =>
        match cache_get (some c) (some ("z_" ++ Nat.repr i)) with
        | none => none
        | some z_i =>
          match nn.layers[i]? with
          | none => none
          | some layer_i =>
            match activation_derivative_for_layer ops layer_i z_i with
            | none => none
            | some act_prime_i =>
              match multiply_matrix propagated act_prime_i with
              | none => none
              | some delta_i => some (cache_put c ("delta_" ++ Nat.repr i) delta_i)

/-- The backward loop for (size_t i = last_index - 1; i != SIZE_MAX; i--):
the index lives in size_t, so decrement is addition of SIZE_MAX modulo
2^64 and the loop stops when the index has wrapped around to SIZE_MAX.
The fuel argument only bounds the recursion (the enclosing call passes
enough for every reachable iteration); the visited indices are returned
alongside the final cache so the traversal order is part of the result. -/
def backprop_hidden_loop (ops : FloatOps) (nn : NeuralNetwork) :
    Nat → Nat → Cache → Option (Cache × List Nat)
  | 0, _, _ => none
  | fuel + 1, i, c =>
    if i = SIZE_MAX then some (c, [])
    else
      match backprop_hidden_step ops nn i c with
      | none => none
      | some c2 =>
        match backprop_hidden_loop ops nn fuel ((i + SIZE_MAX) % (SIZE_MAX + 1)) c2 with
        | none => none
        | some (cf, tr) => some (cf, i :: tr)

/-- The output-delta stage of backpropagate (backprop.c lines 64-103):
last_index = num_layers - 1 in size_t arithmetic, y_hat is fetched from
"a_<last>", and delta_last is either the softmax+CCE shortcut
y_hat - y_true or the generic dL_da times the activation derivative on the
cached z; the result is stored under "delta_<last>". -/
def backprop_output_delta (ops : FloatOps) (nn : NeuralNetwork) (y_true : CMatrix)
    (loss_type : Nat) (loss_func_grad : CMatrix → CMatrix → Option CMatrix) : Option Cache :=
  let last_index := (nn.num_layers + SIZE_MAX) % (SIZE_MAX + 1)
  match nn.layers[last_index]? with
  | none => none
  | some last_layer =>
    match cache_get (some nn.cache) (some ("a_" ++ Nat.repr last_index)) with
    | none => none
    | some y_hat =>
      if last_layer.activation_type = SOFTMAX ∧ loss_type = CCE then
        match subtract_matrix y_hat y_true with
        | none => none
        | some delta_last =>
          some (cache_put nn.cache ("delta_" ++ Nat.repr last_index) delta_last)
      else
        match loss_func_grad y_hat y_true with
        | none => none
        | some dL_da =>
          match cache_get (some nn.cache) (some ("z_" ++ Nat.repr last_index)) with
          | none => none
          | some z_last =>
            match activation_derivative_for_layer ops last_layer z_last with
            | none => none
            | some act_prime_last =>
              match multiply_matrix dL_da act_prime_last with
              | none => none
              | some delta_last =>
                some (cache_put nn.cache ("delta_" ++ Nat.repr last_index) delta_last)

/-- backpropagate (backprop.c): the output-delta stage followed by the
hidden-layer loop started at last_index - 1 (size_t arithmetic); num_layers
units of fuel cover every reachable iteration of the C loop. -/
def backpropagate (ops : FloatOps) (nn : NeuralNetwork) (y_true : CMatrix)
    (loss_type : Nat) (loss_func_grad : CMatrix → CMatrix → Option CMatrix) :
    Option (Cache × List Nat) :=
  match backprop_output_delta ops nn y_true loss_type loss_func_grad with
  | none => none
  | some c1 =>
    let last_index := (nn.num_layers + SIZE_MAX) % (SIZE_MAX + 1)
    backprop_hidden_loop ops nn nn.num_layers ((last_index + SIZE_MAX) % (SIZE_MAX + 1)) c1

/-- calculate_weight_gradient (backprop.c lines 150-181): a_prev is the
cached "input" for layer 0 and "a_<i-1>" otherwise; the result is
dot(transpose(a_prev), delta_i).  The layer_index bound ASSERT and the
missing-key ASSERTs become none. -/
def calculate_weight_gradient (cache : Cache) (layer_index total_layers : Nat) :
    Option CMatrix :=
  if layer_index < total_layers then
    match
      (if layer_index = 0 then cache_get (some cache) (some "input")
       else cache_get (some cache) (some ("a_" ++ Nat.repr (layer_index - 1)))) with
    | none => none
    | some a_prev =>
      match cache_get (some cache) (some ("delta_" ++ Nat.repr layer_index)) with
      | none => none
      | some delta_i => dot_matrix (transpose_matrix a_prev) delta_i
  else none

/-- calculate_bias_gradient (backprop.c lines 192-206): the column sums of
the cached delta_i. -/
def calculate_bias_gradient (cache : Cache) (layer_index total_layers : Nat) :
    Option CMatrix :=
  if layer_index < total_layers then
    match cache_get (some cache) (some ("delta_" ++ Nat.repr layer_index)) with
    | none => none
    | some delta_i => some (sum_matrix_columns delta_i)
  else none

/-! ### Specification-side recurrences (from spec sections 4.5 and 4.6)

These definitions follow the wording of the specification, not the C code;
they exist to state the refinement claims about feedforward and
backpropagation.  The implementation-side functions above are compared
against them. -/

/-- Spec 4.5: the running current-output value before layer i (the copy of
the external input at i = 0, afterwards the post-activation of layer i-1
obtained by dot, bias broadcast and the layer's activation). -/
def ff_current_spec (ops : FloatOps) (nn : NeuralNetwork) (input : CMatrix) :
    Nat → Option CMatrix
  | 0 => some (copy_matrix input)
  | i + 1 =>
    match ff_current_spec ops nn input i, nn.layers[i]? with
    | some cur, some layer =>
      match dot_matrix cur layer.weights with
      | none => none
      | some z_linear =>
        match add_bias_to_matrix z_linear layer.bias with
        | none => none
        | some z => feedforward_activation ops layer z
    | _, _ => none

/-- Spec 4.5: the pre-activation of layer i, z = dot(current, W_i) plus the
broadcast bias. -/
def ff_z_spec (ops : FloatOps) (nn : NeuralNetwork) (input : CMatrix) (i : Nat) :
    Option CMatrix :=
  match ff_current_spec ops nn input i, nn.layers[i]? with
  | some cur, some layer =>
    match dot_matrix cur layer.weights with
    | none => none
    | some z_linear => add_bias_to_matrix z_linear layer.bias
  | _, _ => none

/-- Spec 4.6 step 4, counted by the number of completed backward steps s:
the delta of layer L - s, starting from the output delta dL and using the
cached pre-activations zfun. -/
def bp_delta_steps (ops : FloatOps) (nn : NeuralNetwork) (zfun : Nat → CMatrix)
    (dL : CMatrix) (L : Nat) : Nat → Option CMatrix
  | 0 => some dL
  | s + 1 =>
    match bp_delta_steps ops nn zfun dL L s, nn.layers[L - s - 1 + 1]? with
    | some dnext, some layer_next =>
      match dot_matrix dnext (transpose_matrix layer_next.weights) with
      | none => none
      | some propagated =>
        match nn.layers[L - s - 1]? with
        | none => none
        | some layer_i =>
          match activation_derivative_for_layer ops layer_i (zfun (L - s - 1)) with
          | none => none
          | some ap => multiply_matrix propagated ap
    | _, _ => none

/-- Spec 4.6: the delta of layer i (i ≤ L), i.e. L - i completed backward
steps below the output layer. -/
def bp_delta_spec (ops : FloatOps) (nn : NeuralNetwork) (zfun : Nat → CMatrix)
    (dL : CMatrix) (L i : Nat) : Option CMatrix :=
  bp_delta_steps ops nn zfun dL L (L - i)

/-- Verification invariant for the backward pass: the cache holds, under
"delta_<j>", exactly the spec-side delta of layer j, with batch-row count N
and the layer's output width, and a well-formed buffer. -/
def delta_inv (ops : FloatOps) (nn : NeuralNetwork) (lay : Nat → Layer) (N : Nat)
    (zfun : Nat → CMatrix) (dL : CMatrix) (L : Nat) (c : Cache) (j : Nat) : Prop :=
  ∃ dj, bp_delta_spec ops nn zfun dL L j = some dj ∧ dj.rows = N ∧
    dj.cols = (lay j).weights.cols ∧ dj.wf ∧
    cache_get (some c) (some ("delta_" ++ Nat.repr j)) = some dj

/-- Decimal re-reading step used to invert the Nat.repr rendering of cache
key indices: shift the accumulator and add the digit value of the
character. -/
def decStep (a : Nat) (ch : Char) : Nat := 10 * a + (ch.toNat - 48)

/-! ### Auxiliary lemmas about the buffer representation -/

theorem getD_map_range (f : Nat → ℚ) {n idx : Nat} (h : idx < n) :
    ((List.range n).map f).getD idx 0 = f idx := by
  rw [List.getD_eq_getElem?_getD, List.getElem?_map, List.getElem?_range h]
  rfl

theorem range_map_getD (l : List ℚ) :
    (List.range l.length).map (fun i => l.getD i 0) = l := by
  apply List.ext_getElem
  · simp
  · intro i h1 h2
    simp [List.getD_eq_getElem?_getD, List.getElem?_eq_getElem h2]

theorem foldl_add_eq (g : Nat → ℚ) :
    ∀ (n : Nat) (init : ℚ),
      (List.range n).foldl (fun acc k => acc + g k) init = init + ∑ k ∈ Finset.range n, g k := by
  intro n
  induction n with
  | zero => intro init; simp
  | succ n ih =>
    intro init
    rw [List.range_succ, List.foldl_append, ih, Finset.sum_range_succ]
    simp [add_assoc]

theorem idx_lt {i j r c : Nat} (hi : i < r) (hj : j < c) : i * c + j < r * c := by
  calc i * c + j < i * c + c := by omega
    _ = (i + 1) * c := by ring
    _ ≤ r * c := Nat.mul_le_mul_right c hi

theorem idx_div {i j c : Nat} (hj : j < c) : (i * c + j) / c = i := by
  have hc : 0 < c := by omega
  rw [mul_comm, Nat.mul_add_div hc, Nat.div_eq_of_lt hj, add_zero]

theorem idx_mod {i j c : Nat} (hj : j < c) : (i * c + j) % c = j := by
  rw [mul_comm, Nat.mul_add_mod, Nat.mod_eq_of_lt hj]

theorem copy_matrix_eq_self {m : CMatrix} (h : m.wf) : copy_matrix m = m := by
  obtain ⟨r, c, d⟩ := m
  simp only [CMatrix.wf] at h
  simp only [copy_matrix, CMatrix.mk.injEq, true_and]
  rw [← h]
  exact range_map_getD d

theorem copy_matrix_rows (m : CMatrix) : (copy_matrix m).rows = m.rows := rfl

theorem copy_matrix_cols (m : CMatrix) : (copy_matrix m).cols = m.cols := rfl

theorem copy_matrix_wf (m : CMatrix) : (copy_matrix m).wf := by
  simp [copy_matrix, CMatrix.wf]

theorem mapElems_wf (f : ℚ → ℚ) (m : CMatrix) : (mapElems f m).wf := by
  simp [mapElems, CMatrix.wf]

/-! ### Auxiliary lemmas about the cache -/

theorem hash_lt (k : String) : hash k < HASH_MAP_SIZE :=
  Nat.mod_lt _ (by norm_num [HASH_MAP_SIZE])

theorem getD_set_self {α : Type} (l : List α) (i : Nat) (a : α) (d : α)
    (h : i < l.length) : (l.set i a).getD i d = a := by
  rw [List.getD_eq_getElem?_getD, List.getElem?_set_self h]
  rfl

theorem getD_set_ne {α : Type} (l : List α) {i j : Nat} (a : α) (d : α)
    (h : i ≠ j) : (l.set i a).getD j d = l.getD j d := by
  rw [List.getD_eq_getElem?_getD, List.getElem?_set_ne h, ← List.getD_eq_getElem?_getD]

theorem cache_put_length (c : Cache) (k : String) (m : CMatrix) :
    (cache_put c k m).entries.length = c.entries.length := by
  cases hb : bucket_replace k m (c.entries.getD (hash k) []) <;>
    simp only [List.getD_eq_getElem?_getD] at hb <;> simp [cache_put, hb]

theorem bucket_find_replace_some {k : String} {m : CMatrix} :
    ∀ {b b2 : List CacheEntry}, bucket_replace k m b = some b2 →
      bucket_find k b2 = some (copy_matrix m) := by
  intro b
  induction b with
  | nil => intro b2 h; simp [bucket_replace] at h
  | cons e rest ih =>
    intro b2 h
    by_cases he : e.key = k
    · simp only [bucket_replace, he, if_pos] at h
      obtain rfl : ({ key := k, m := m } : CacheEntry) :: rest = b2 := by
        simpa using h
      simp [bucket_find]
    · simp only [bucket_replace, he, if_neg, not_false_iff] at h
      cases hr : bucket_replace k m rest with
      | none => rw [hr] at h; simp at h
      | some r =>
        rw [hr] at h
        obtain rfl : e :: r = b2 := by simpa using h
        simp only [bucket_find, he, if_neg, not_false_iff]
        exact ih hr

theorem bucket_find_replace_ne {k k1 : String} {m : CMatrix} (hk : k1 ≠ k) :
    ∀ {b b2 : List CacheEntry}, bucket_replace k1 m b = some b2 →
      bucket_find k b2 = bucket_find k b := by
  intro b
  induction b with
  | nil => intro b2 h; simp [bucket_replace] at h
  | cons e rest ih =>
    intro b2 h
    by_cases he : e.key = k1
    · simp only [bucket_replace, he, if_pos] at h
      obtain rfl : ({ key := k1, m := m } : CacheEntry) :: rest = b2 := by
        simpa using h
      simp [bucket_find, he, hk]
    · simp only [bucket_replace, he, if_neg, not_false_iff] at h
      cases hr : bucket_replace k1 m rest with
      | none => rw [hr] at h; simp at h
      | some r =>
        rw [hr] at h
        obtain rfl : e :: r = b2 := by simpa using h
        simp only [bucket_find]
        rw [ih hr]

theorem cache_get_put_same (c : Cache) (k : String) (m : CMatrix)
    (hlen : c.entries.length = HASH_MAP_SIZE) :
    cache_get (some (cache_put c k m)) (some k) = some (copy_matrix m) := by
  have hidx : hash k < c.entries.length := hlen ▸ hash_lt k
  cases hb : bucket_replace k m (c.entries.getD (hash k) []) with
  | some b2 =>
    simp only [cache_get, cache_put, hb]
    rw [getD_set_self _ _ _ _ hidx]
    exact bucket_find_replace_some hb
  | none =>
    simp only [cache_get, cache_put, hb]
    rw [getD_set_self _ _ _ _ hidx]
    simp [bucket_find]

theorem cache_get_put_ne (c : Cache) {k1 k : String} (m : CMatrix) (hk : k1 ≠ k)
    (hlen : c.entries.length = HASH_MAP_SIZE) :
    cache_get (some (cache_put c k1 m)) (some k) = cache_get (some c) (some k) := by
  have hidx : hash k1 < c.entries.length := hlen ▸ hash_lt k1
  by_cases hh : hash k1 = hash k
  · cases hb : bucket_replace k1 m (c.entries.getD (hash k1) []) with
    | some b2 =>
      simp only [cache_get, cache_put, hb]
      rw [← hh, getD_set_self _ _ _ _ hidx]
      rw [bucket_find_replace_ne hk hb, hh]
    | none =>
      simp only [cache_get, cache_put, hb]
      rw [← hh, getD_set_self _ _ _ _ hidx]
      simp only [bucket_find, hk, if_neg, not_false_iff]
  · cases hb : bucket_replace k1 m (c.entries.getD (hash k1) []) with
    | some b2 =>
      simp only [cache_get, cache_put, hb]
      rw [getD_set_ne _ _ _ hh]
    | none =>
      simp only [cache_get, cache_put, hb]
      rw [getD_set_ne _ _ _ hh]

theorem cache_get_create (k : String) : cache_get (some create_cache) (some k) = none := by
  show bucket_find k (create_cache.entries.getD (hash k) []) = none
  have h0 : create_cache.entries.getD (hash k) [] = [] := by
    simp only [create_cache]
    rw [List.getD_eq_getElem?_getD, List.getElem?_replicate]
    split <;> rfl
  rw [h0]
  rfl

/-! ### Injectivity of the decimal key rendering -/

theorem digitChar_toNat {d : Nat} (h : d < 10) : (Nat.digitChar d).toNat = d + 48 := by
  interval_cases d <;> rfl

theorem toDigitsCore_val :
    ∀ (fuel n : Nat) (acc : List Char) (init : Nat), n < fuel →
      ∃ kk, 0 < kk ∧
        List.foldl decStep init (Nat.toDigitsCore 10 fuel n acc) =
          List.foldl decStep (init * 10 ^ kk + n) acc := by
  intro fuel
  induction fuel with
  | zero => intro n acc init h; omega
  | succ fuel ih =>
    intro n acc init h
    by_cases h10 : n / 10 = 0
    · refine ⟨1, Nat.one_pos, ?_⟩
      have hn10 : n < 10 := by omega
      simp only [Nat.toDigitsCore, h10, if_pos]
      simp only [List.foldl_cons]
      have : decStep init (Nat.digitChar (n % 10)) = init * 10 ^ 1 + n := by
        unfold decStep
        rw [digitChar_toNat (Nat.mod_lt _ (by norm_num))]
        have : n % 10 = n := Nat.mod_eq_of_lt hn10
        omega
      rw [this]
    · have hnpos : 0 < n := by
        rcases Nat.eq_zero_or_pos n with h0 | h0
        · subst h0; simp at h10
        · exact h0
      have hlt : n / 10 < fuel := by
        have : n / 10 < n := Nat.div_lt_self hnpos (by norm_num)
        omega
      obtain ⟨kk, hkpos, hk⟩ := ih (n / 10) (Nat.digitChar (n % 10) :: acc) init hlt
      refine ⟨kk + 1, by omega, ?_⟩
      simp only [Nat.toDigitsCore, h10, if_neg, not_false_iff]
      rw [hk]
      simp only [List.foldl_cons]
      have : decStep (init * 10 ^ kk + n / 10) (Nat.digitChar (n % 10)) =
          init * 10 ^ (kk + 1) + n := by
        unfold decStep
        rw [digitChar_toNat (Nat.mod_lt _ (by norm_num))]
        have h1 : 10 * (n / 10) + n % 10 = n := Nat.div_add_mod n 10
        have h2 : 10 ^ (kk + 1) = 10 ^ kk * 10 := pow_succ 10 kk
        have h3 : n % 10 + 48 - 48 = n % 10 := by omega
        rw [h3]
        calc 10 * (init * 10 ^ kk + n / 10) + n % 10
            = init * (10 ^ kk * 10) + (10 * (n / 10) + n % 10) := by ring
          _ = init * 10 ^ (kk + 1) + n := by rw [h1, h2]
      rw [this]

theorem repr_val (n : Nat) : List.foldl decStep 0 (Nat.toDigits 10 n) = n := by
  obtain ⟨kk, _, hk⟩ := toDigitsCore_val (n + 1) n [] 0 (Nat.lt_succ_self n)
  unfold Nat.toDigits
  rw [hk]
  simp

theorem repr_inj {m n : Nat} (h : Nat.repr m = Nat.repr n) : m = n := by
  unfold Nat.repr at h
  have hd : Nat.toDigits 10 m = Nat.toDigits 10 n := by
    have := congrArg String.data h
    simpa [List.asString] using this
  have hm := repr_val m
  have hn := repr_val n
  rw [hd] at hm
  omega

/-! ### Distinctness of the cache key namespace -/

theorem string_append_left_cancel {p s t : String} (h : p ++ s = p ++ t) : s = t := by
  have h2 := congrArg String.data h
  rw [String.data_append, String.data_append] at h2
  exact String.ext (List.append_cancel_left h2)

theorem repr_ne_of_ne {i j : Nat} (h : i ≠ j) : Nat.repr i ≠ Nat.repr j :=
  fun hc => h (repr_inj hc)

theorem delta_key_inj {i j : Nat} (h : i ≠ j) :
    ("delta_" ++ Nat.repr i) ≠ ("delta_" ++ Nat.repr j) :=
  fun hc => repr_ne_of_ne h (string_append_left_cancel hc)

theorem z_key_inj {i j : Nat} (h : i ≠ j) :
    ("z_" ++ Nat.repr i) ≠ ("z_" ++ Nat.repr j) :=
  fun hc => repr_ne_of_ne h (string_append_left_cancel hc)

theorem a_key_inj {i j : Nat} (h : i ≠ j) :
    ("a_" ++ Nat.repr i) ≠ ("a_" ++ Nat.repr j) :=
  fun hc => repr_ne_of_ne h (string_append_left_cancel hc)

theorem z_key_ne_delta_key (i j : Nat) : ("z_" ++ Nat.repr i) ≠ ("delta_" ++ Nat.repr j) := by
  intro h
  have h2 := congrArg String.data h
  rw [String.data_append, String.data_append] at h2
  simp at h2

theorem a_key_ne_delta_key (i j : Nat) : ("a_" ++ Nat.repr i) ≠ ("delta_" ++ Nat.repr j) := by
  intro h
  have h2 := congrArg String.data h
  rw [String.data_append, String.data_append] at h2
  simp at h2

theorem z_key_ne_a_key (i j : Nat) : ("z_" ++ Nat.repr i) ≠ ("a_" ++ Nat.repr j) := by
  intro h
  have h2 := congrArg String.data h
  rw [String.data_append, String.data_append] at h2
  simp at h2

theorem input_key_ne_z_key (i : Nat) : "input" ≠ ("z_" ++ Nat.repr i) := by
  intro h
  have h2 := congrArg String.data h
  rw [String.data_append] at h2
  simp at h2

theorem input_key_ne_a_key (i : Nat) : "input" ≠ ("a_" ++ Nat.repr i) := by
  intro h
  have h2 := congrArg String.data h
  rw [String.data_append] at h2
  simp at h2

theorem input_key_ne_delta_key (i : Nat) : "input" ≠ ("delta_" ++ Nat.repr i) := by
  intro h
  have h2 := congrArg String.data h
  rw [String.data_append] at h2
  simp at h2

/-! ### Shape and well-formedness facts for the matrix operations -/

theorem wf_mk_map (r c : Nat) (f : Nat → ℚ) :
    (CMatrix.mk r c ((List.range (r * c)).map f)).wf := by
  simp [CMatrix.wf]

theorem entry_mk_map (r c : Nat) (f : Nat → ℚ) {i j : Nat} (hi : i < r) (hj : j < c) :
    (CMatrix.mk r c ((List.range (r * c)).map f)).entry i j = f (i * c + j) := by
  unfold CMatrix.entry
  exact getD_map_range f (idx_lt hi hj)

theorem dot_matrix_dims {m1 m2 M : CMatrix} (h : dot_matrix m1 m2 = some M) :
    M.rows = m1.rows ∧ M.cols = m2.cols ∧ M.wf := by
  unfold dot_matrix at h
  split at h
  · simp only [Option.some.injEq] at h
    subst h
    exact ⟨rfl, rfl, wf_mk_map _ _ _⟩
  · simp at h

theorem add_bias_dims {m bias M : CMatrix} (h : add_bias_to_matrix m bias = some M) :
    M.rows = m.rows ∧ M.cols = m.cols ∧ M.wf := by
  unfold add_bias_to_matrix at h
  split at h
  · simp only [Option.some.injEq] at h
    subst h
    exact ⟨rfl, rfl, wf_mk_map _ _ _⟩
  · simp at h

theorem subtract_matrix_dims {a b M : CMatrix} (h : subtract_matrix a b = some M) :
    M.rows = a.rows ∧ M.cols = a.cols ∧ M.wf := by
  unfold subtract_matrix at h
  split at h
  · simp only [Option.some.injEq] at h
    subst h
    exact ⟨rfl, rfl, wf_mk_map _ _ _⟩
  · simp at h

theorem multiply_matrix_dims {a b M : CMatrix} (h : multiply_matrix a b = some M) :
    M.rows = a.rows ∧ M.cols = a.cols ∧ M.wf := by
  unfold multiply_matrix at h
  split at h
  · simp only [Option.some.injEq] at h
    subst h
    exact ⟨rfl, rfl, wf_mk_map _ _ _⟩
  · simp at h

theorem transpose_matrix_dims (m : CMatrix) :
    (transpose_matrix m).rows = m.cols ∧ (transpose_matrix m).cols = m.rows ∧
      (transpose_matrix m).wf :=
  ⟨rfl, rfl, wf_mk_map _ _ _⟩

theorem transpose_entry {m : CMatrix} {p q : Nat} (hp : p < m.cols) (hq : q < m.rows) :
    (transpose_matrix m).entry p q = m.entry q p := by
  unfold transpose_matrix
  rw [entry_mk_map _ _ _ hp hq, idx_mod hq, idx_div hq]

theorem feedforward_activation_dims {ops : FloatOps} {layer : Layer} {z a : CMatrix}
    (hm : feedforward_activation ops layer z = some a) :
    a.rows = z.rows ∧ a.cols = z.cols ∧ a.wf := by
  unfold feedforward_activation at hm
  split at hm <;>
  first
  | · simp only [Option.some.injEq] at hm
      subst hm
      first
      | exact ⟨rfl, rfl, mapElems_wf _ _⟩
      | exact ⟨rfl, rfl, copy_matrix_wf _⟩
      | exact ⟨rfl, rfl, wf_mk_map _ _ _⟩
  | · unfold leaky_relu at hm
      split at hm
      · simp only [Option.some.injEq] at hm
        subst hm
        exact ⟨rfl, rfl, mapElems_wf _ _⟩
      · simp at hm

theorem activation_derivative_dims {ops : FloatOps} {layer : Layer} {z ap : CMatrix}
    (hm : activation_derivative_for_layer ops layer z = some ap) :
    ap.rows = z.rows ∧ ap.cols = z.cols ∧ ap.wf := by
  unfold activation_derivative_for_layer at hm
  split at hm <;>
  first
  | · simp only [Option.some.injEq] at hm
      subst hm
      exact ⟨rfl, rfl, mapElems_wf _ _⟩
  | · unfold leaky_relu_prime at hm
      split at hm
      · simp only [Option.some.injEq] at hm
        subst hm
        exact ⟨rfl, rfl, mapElems_wf _ _⟩
      · simp at hm

theorem cache_get_wf {c : Cache} {k : String} {m : CMatrix}
    (h : cache_get (some c) (some k) = some m) : m.wf := by
  have haux : ∀ b : List CacheEntry, bucket_find k b = some m → m.wf := by
    intro b
    induction b with
    | nil => intro h2; simp [bucket_find] at h2
    | cons e rest ih =>
      intro h2
      unfold bucket_find at h2
      split at h2
      · obtain rfl : copy_matrix e.m = m := by simpa using h2
        exact copy_matrix_wf _
      · exact ih h2
  exact haux _ h

/-! ### size_t wraparound arithmetic and the backward loop -/

theorem size_t_pred {n : Nat} (h1 : 1 ≤ n) (h2 : n ≤ SIZE_MAX) :
    (n + SIZE_MAX) % (SIZE_MAX + 1) = n - 1 := by
  have hp : (2 : Nat) ^ 64 = 18446744073709551616 := by norm_num
  simp only [SIZE_MAX, hp] at h2 ⊢
  omega

theorem backprop_hidden_loop_sentinel (ops : FloatOps) (nn : NeuralNetwork)
    (fuel : Nat) (c : Cache) :
    backprop_hidden_loop ops nn (fuel + 1) SIZE_MAX c = some (c, []) := by
  unfold backprop_hidden_loop
  rw [if_pos rfl]

theorem backprop_hidden_loop_trace (ops : FloatOps) (nn : NeuralNetwork) :
    ∀ (fuel i : Nat) (c c' : Cache) (tr : List Nat), i < SIZE_MAX →
      backprop_hidden_loop ops nn fuel i c = some (c', tr) →
      tr = (List.range (i + 1)).reverse := by
  intro fuel
  induction fuel with
  | zero =>
    intro i c c' tr hi h
    simp [backprop_hidden_loop] at h
  | succ fuel ih =>
    intro i c c' tr hi h
    unfold backprop_hidden_loop at h
    rw [if_neg (Nat.ne_of_lt hi)] at h
    cases hs : backprop_hidden_step ops nn i c with
    | none => rw [hs] at h; simp at h
    | some c2 =>
      simp only [hs] at h
      by_cases hi0 : i = 0
      · subst hi0
        have hnext : (0 + SIZE_MAX) % (SIZE_MAX + 1) = SIZE_MAX := by
          rw [Nat.zero_add]
          exact Nat.mod_eq_of_lt (by omega)
        rw [hnext] at h
        cases fuel with
        | zero => simp [backprop_hidden_loop] at h
        | succ fuel2 =>
          rw [backprop_hidden_loop_sentinel] at h
          simp only [Option.some.injEq, Prod.mk.injEq] at h
          rw [← h.2]
          rfl
      · have hnext : (i + SIZE_MAX) % (SIZE_MAX + 1) = i - 1 :=
          size_t_pred (by omega) (by omega)
        rw [hnext] at h
        cases hrec : backprop_hidden_loop ops nn fuel (i - 1) c2 with
        | none => rw [hrec] at h; simp at h
        | some p =>
          obtain ⟨cf, tr2⟩ := p
          simp only [hrec] at h
          simp only [Option.some.injEq, Prod.mk.injEq] at h
          have htr2 := ih (i - 1) c2 cf tr2 (by omega) hrec
          rw [← h.2, htr2]
          have hfix : i - 1 + 1 = i := by omega
          rw [hfix]
          rw [show i + 1 = i + 1 from rfl, List.range_succ]
          simp

theorem backprop_output_delta_put {ops : FloatOps} {nn : NeuralNetwork} {y_true : CMatrix}
    {lt : Nat} {g : CMatrix → CMatrix → Option CMatrix} {c1 : Cache}
    (h : backprop_output_delta ops nn y_true lt g = some c1) :
    ∃ d, c1 = cache_put nn.cache
      ("delta_" ++ Nat.repr ((nn.num_layers + SIZE_MAX) % (SIZE_MAX + 1))) d := by
  unfold backprop_output_delta at h
  cases hl : nn.layers[(nn.num_layers + SIZE_MAX) % (SIZE_MAX + 1)]? with
  | none => simp [hl] at h
  | some last_layer =>
    simp only [hl] at h
    cases ha : cache_get (some nn.cache)
        (some ("a_" ++ Nat.repr ((nn.num_layers + SIZE_MAX) % (SIZE_MAX + 1)))) with
    | none => simp [ha] at h
    | some y_hat =>
      simp only [ha] at h
      by_cases hcond : last_layer.activation_type = SOFTMAX ∧ lt = CCE
      · rw [if_pos hcond] at h
        cases hsub : subtract_matrix y_hat y_true with
        | none => simp [hsub] at h
        | some d =>
          simp only [hsub, Option.some.injEq] at h
          exact ⟨d, h.symm⟩
      · rw [if_neg hcond] at h
        cases hg : g y_hat y_true with
        | none => simp [hg] at h
        | some dL_da =>
          simp only [hg] at h
          cases hz : cache_get (some nn.cache)
              (some ("z_" ++ Nat.repr ((nn.num_layers + SIZE_MAX) % (SIZE_MAX + 1)))) with
          | none => simp [hz] at h
          | some z_last =>
            simp only [hz] at h
            cases hap : activation_derivative_for_layer ops last_layer z_last with
            | none => simp [hap] at h
            | some ap =>
              simp only [hap] at h
              cases hm : multiply_matrix dL_da ap with
              | none => simp [hm] at h
              | some d2 =>
                simp only [hm, Option.some.injEq] at h
                exact ⟨d2, h.symm⟩

theorem dot_matrix_entries {A B : CMatrix} (h : A.cols = B.rows) :
    ∃ M, dot_matrix A B = some M ∧ M.rows = A.rows ∧ M.cols = B.cols ∧ M.wf ∧
      ∀ i j, i < A.rows → j < B.cols →
        M.entry i j = ∑ k ∈ Finset.range A.cols, A.entry i k * B.entry k j := by
  refine ⟨CMatrix.mk A.rows B.cols ((List.range (A.rows * B.cols)).map (fun idx =>
    (List.range A.cols).foldl
      (fun acc k => acc + A.entry (idx / B.cols) k * B.entry k (idx % B.cols)) 0)),
    ?_, rfl, rfl, wf_mk_map _ _ _, ?_⟩
  · unfold dot_matrix
    rw [if_pos h]
  · intro i j hi hj
    rw [entry_mk_map _ _ _ hi hj, idx_div hj, idx_mod hj, foldl_add_eq]
    simp

theorem sum_matrix_columns_entry {m : CMatrix} {j : Nat} (hj : j < m.cols) :
    (sum_matrix_columns m).entry 0 j = ∑ r ∈ Finset.range m.rows, m.entry r j := by
  unfold sum_matrix_columns CMatrix.entry
  simp only [zero_mul, zero_add]
  rw [getD_map_range _ hj, foldl_add_eq]
  simp

/-! ### Stepping lemmas for the forward pass -/

theorem add_bias_some {m bias : CMatrix} (h1 : bias.rows = 1) (h2 : m.cols = bias.cols) :
    ∃ M, add_bias_to_matrix m bias = some M ∧ M.rows = m.rows ∧ M.cols = m.cols ∧ M.wf := by
  unfold add_bias_to_matrix
  rw [if_pos ⟨h1, h2⟩]
  exact ⟨_, rfl, rfl, rfl, wf_mk_map _ _ _⟩

theorem add_bias_entry {m bias M : CMatrix} (h : add_bias_to_matrix m bias = some M)
    {r q : Nat} (hr : r < m.rows) (hq : q < m.cols) :
    M.entry r q = m.entry r q + bias.entry 0 q := by
  unfold add_bias_to_matrix at h
  split at h
  · simp only [Option.some.injEq] at h
    subst h
    rw [entry_mk_map _ _ _ hr hq, idx_mod hq]
    unfold CMatrix.entry
    simp
  · simp at h

theorem multiply_matrix_some {a b : CMatrix} (h1 : a.rows = b.rows) (h2 : a.cols = b.cols) :
    ∃ M, multiply_matrix a b = some M ∧ M.rows = a.rows ∧ M.cols = a.cols ∧ M.wf := by
  unfold multiply_matrix
  rw [if_pos ⟨h1, h2⟩]
  exact ⟨_, rfl, rfl, rfl, wf_mk_map _ _ _⟩

theorem feedforward_activation_some (ops : FloatOps) (layer : Layer) (z : CMatrix)
    (hleak : 0 ≤ layer.leak_parameter) :
    ∃ a, feedforward_activation ops layer z = some a := by
  unfold feedforward_activation
  split
  all_goals first
    | exact ⟨_, rfl⟩
    | (unfold leaky_relu; rw [if_pos hleak]; exact ⟨_, rfl⟩)

theorem activation_derivative_some (ops : FloatOps) (layer : Layer) (z : CMatrix)
    (hleak : 0 ≤ layer.leak_parameter) :
    ∃ ap, activation_derivative_for_layer ops layer z = some ap := by
  unfold activation_derivative_for_layer
  split
  all_goals first
    | exact ⟨_, rfl⟩
    | (unfold leaky_relu_prime; rw [if_pos hleak]; exact ⟨_, rfl⟩)

theorem feedforward_loop_cons (ops : FloatOps) (nn : NeuralNetwork) (i : Nat)
    (rest : List Nat) (c : Cache) (cur : CMatrix) (layer : Layer)
    (z_linear z a : CMatrix)
    (hl : nn.layers[i]? = some layer)
    (hc : cur.cols = layer.weights.rows)
    (hdot : dot_matrix cur layer.weights = some z_linear)
    (hzl : z_linear.rows = cur.rows ∧ z_linear.cols = layer.weights.cols)
    (hbadd : add_bias_to_matrix z_linear layer.bias = some z)
    (hz : z.rows = z_linear.rows ∧ z.cols = z_linear.cols)
    (hact : feedforward_activation ops layer z = some a)
    (ha : a.rows = z.rows ∧ a.cols = z.cols) :
    feedforward_loop ops nn (i :: rest) c cur =
      feedforward_loop ops nn rest
        (cache_put (cache_put c ("z_" ++ Nat.repr i) (copy_matrix z))
          ("a_" ++ Nat.repr i) (copy_matrix a)) a := by
  simp only [feedforward_loop, hl]
  rw [if_pos hc]
  simp only [hdot]
  rw [if_pos hzl]
  simp only [hbadd]
  rw [if_pos hz]
  simp only [hact]
  rw [if_pos ha]

theorem ff_z_spec_eq (ops : FloatOps) (nn : NeuralNetwork) (input : CMatrix) (i : Nat)
    (cur : CMatrix) (layer : Layer) (z_linear : CMatrix)
    (hcur : ff_current_spec ops nn input i = some cur)
    (hl : nn.layers[i]? = some layer)
    (hdot : dot_matrix cur layer.weights = some z_linear) :
    ff_z_spec ops nn input i = add_bias_to_matrix z_linear layer.bias := by
  simp only [ff_z_spec, hcur, hl, hdot]

theorem ff_current_spec_succ (ops : FloatOps) (nn : NeuralNetwork) (input : CMatrix)
    (i : Nat) (cur : CMatrix) (layer : Layer) (z_linear z : CMatrix)
    (hcur : ff_current_spec ops nn input i = some cur)
    (hl : nn.layers[i]? = some layer)
    (hdot : dot_matrix cur layer.weights = some z_linear)
    (hbadd : add_bias_to_matrix z_linear layer.bias = some z) :
    ff_current_spec ops nn input (i + 1) = feedforward_activation ops layer z := by
  simp only [ff_current_spec, hcur, hl, hdot, hbadd]

theorem feedforward_loop_invariant (ops : FloatOps) (nn : NeuralNetwork) (input : CMatrix)
    (lay : Nat → Layer)
    (hlay : ∀ i, i < nn.num_layers → nn.layers[i]? = some (lay i))
    (hchain : ∀ i, i + 1 < nn.num_layers → (lay (i + 1)).weights.rows = (lay i).weights.cols)
    (hbias : ∀ i, i < nn.num_layers → (lay i).bias.rows = 1 ∧ (lay i).bias.cols = (lay i).weights.cols)
    (hleak : ∀ i, i < nn.num_layers → 0 ≤ (lay i).leak_parameter) :
    ∀ (k start : Nat), start + k = nn.num_layers →
      ∀ (c : Cache) (cur : CMatrix),
        c.entries.length = HASH_MAP_SIZE →
        ff_current_spec ops nn input start = some cur →
        (start < nn.num_layers → cur.cols = (lay start).weights.rows) →
        ∃ cf out,
          feedforward_loop ops nn (List.range' start k) c cur = some (cf, out) ∧
          ff_current_spec ops nn input nn.num_layers = some out ∧
          cf.entries.length = HASH_MAP_SIZE ∧
          (∀ key : String,
            (∀ i, start ≤ i → i < nn.num_layers →
              key ≠ ("z_" ++ Nat.repr i) ∧ key ≠ ("a_" ++ Nat.repr i)) →
            cache_get (some cf) (some key) = cache_get (some c) (some key)) ∧
          (∀ i, start ≤ i → i < nn.num_layers →
            ∃ z a, ff_z_spec ops nn input i = some z ∧
              ff_current_spec ops nn input (i + 1) = some a ∧
              feedforward_activation ops (lay i) z = some a ∧
              cache_get (some cf) (some ("z_" ++ Nat.repr i)) = some z ∧
              cache_get (some cf) (some ("a_" ++ Nat.repr i)) = some a) := by
  intro k
  induction k with
  | zero =>
    intro start hk c cur hclen hcur hcols
    have hse : start = nn.num_layers := by omega
    refine ⟨c, cur, rfl, hse ▸ hcur, hclen, fun key _ => rfl, ?_⟩
    intro i hi1 hi2
    omega
  | succ k ih =>
    intro start hk c cur hclen hcur hcols
    have hstartL : start < nn.num_layers := by omega
    have hl := hlay start hstartL
    have hc : cur.cols = (lay start).weights.rows := hcols hstartL
    obtain ⟨z_linear, hdot, hzlr, hzlc, _, _⟩ := dot_matrix_entries hc
    obtain ⟨hb1, hb2⟩ := hbias start hstartL
    obtain ⟨z, hbadd, hzr, hzc, hzwf⟩ := add_bias_some hb1 (by rw [hzlc, hb2])
    obtain ⟨a, hact⟩ := feedforward_activation_some ops (lay start) z (hleak start hstartL)
    obtain ⟨har, hac, hawf⟩ := feedforward_activation_dims hact
    have hstep := feedforward_loop_cons ops nn start (List.range' (start + 1) k) c cur
      (lay start) z_linear z a hl hc hdot ⟨hzlr, hzlc⟩ hbadd ⟨hzr, hzc⟩ hact ⟨har, hac⟩
    have hspecz : ff_z_spec ops nn input start = some z :=
      (ff_z_spec_eq ops nn input start cur (lay start) z_linear hcur hl hdot).trans hbadd
    have hpseq : ff_current_spec ops nn input (start + 1) = some a :=
      (ff_current_spec_succ ops nn input start cur (lay start) z_linear z
        hcur hl hdot hbadd).trans hact
    have hclen1 : (cache_put c ("z_" ++ Nat.repr start) (copy_matrix z)).entries.length =
        HASH_MAP_SIZE := by
      rw [cache_put_length]
      exact hclen
    have hclen2 : (cache_put (cache_put c ("z_" ++ Nat.repr start) (copy_matrix z))
        ("a_" ++ Nat.repr start) (copy_matrix a)).entries.length = HASH_MAP_SIZE := by
      rw [cache_put_length]
      exact hclen1
    have hcols2 : start + 1 < nn.num_layers → a.cols = (lay (start + 1)).weights.rows := by
      intro h2
      rw [hchain start h2, hac, hzc, hzlc]
    obtain ⟨cf, out, hloop, hout, hcflen, hpres, hentries⟩ :=
      ih (start + 1) (by omega)
        (cache_put (cache_put c ("z_" ++ Nat.repr start) (copy_matrix z))
          ("a_" ++ Nat.repr start) (copy_matrix a)) a hclen2 hpseq hcols2
    refine ⟨cf, out, ?_, hout, hcflen, ?_, ?_⟩
    · rw [show List.range' start (k + 1) = start :: List.range' (start + 1) k from rfl,
        hstep]
      exact hloop
    · intro key hkey
      have hk1 : ("z_" ++ Nat.repr start) ≠ key := Ne.symm (hkey start le_rfl hstartL).1
      have hk2 : ("a_" ++ Nat.repr start) ≠ key := Ne.symm (hkey start le_rfl hstartL).2
      rw [hpres key (fun i hi1 hi2 => hkey i (by omega) hi2),
        cache_get_put_ne _ _ hk2 hclen1, cache_get_put_ne _ _ hk1 hclen]
    · intro i hi1 hi2
      by_cases hieq : i = start
      · subst hieq
        refine ⟨z, a, hspecz, hpseq, hact, ?_, ?_⟩
        · rw [hpres _ (fun j hj1 hj2 =>
            ⟨z_key_inj (by omega), z_key_ne_a_key i j⟩)]
          rw [cache_get_put_ne _ _ (Ne.symm (z_key_ne_a_key i i)) hclen1,
            cache_get_put_same _ _ _ hclen,
            copy_matrix_eq_self (copy_matrix_wf z), copy_matrix_eq_self hzwf]
        · rw [hpres _ (fun j hj1 hj2 =>
            ⟨Ne.symm (z_key_ne_a_key j i), a_key_inj (by omega)⟩)]
          rw [cache_get_put_same _ _ _ hclen1,
            copy_matrix_eq_self (copy_matrix_wf a), copy_matrix_eq_self hawf]
      · exact hentries i (by omega) hi2

/-! ### Stepping lemmas for the backward pass -/

theorem bp_delta_spec_last (ops : FloatOps) (nn : NeuralNetwork) (zfun : Nat → CMatrix)
    (dL : CMatrix) (L : Nat) : bp_delta_spec ops nn zfun dL L L = some dL := by
  unfold bp_delta_spec
  rw [Nat.sub_self]
  rfl

theorem bp_delta_spec_succ_step {ops : FloatOps} {nn : NeuralNetwork} {zfun : Nat → CMatrix}
    {dL : CMatrix} {L i : Nat} (hiL : i < L)
    {dnext : CMatrix} (hd : bp_delta_spec ops nn zfun dL L (i + 1) = some dnext)
    {layer_next layer_i : Layer}
    (hln : nn.layers[i + 1]? = some layer_next)
    (hli : nn.layers[i]? = some layer_i)
    {propagated : CMatrix}
    (hprop : dot_matrix dnext (transpose_matrix layer_next.weights) = some propagated)
    {ap : CMatrix} (hap : activation_derivative_for_layer ops layer_i (zfun i) = some ap) :
    bp_delta_spec ops nn zfun dL L i = multiply_matrix propagated ap := by
  unfold bp_delta_spec at hd ⊢
  have hs : L - i = (L - i - 1) + 1 := by omega
  rw [hs]
  have hidx : L - (L - i - 1) - 1 = i := by omega
  have hs2 : L - (i + 1) = L - i - 1 := by omega
  rw [hs2] at hd
  simp only [bp_delta_steps, hidx, hd, hln, hprop, hli, hap]

theorem backprop_hidden_step_eq (ops : FloatOps) (nn : NeuralNetwork) (i : Nat) (c : Cache)
    (dnext : CMatrix) (layer_next : Layer) (propagated z_i : CMatrix) (layer_i : Layer)
    (ap di : CMatrix)
    (hdn : cache_get (some c) (some ("delta_" ++ Nat.repr (i + 1))) = some dnext)
    (hln : nn.layers[i + 1]? = some layer_next)
    (hprop : dot_matrix dnext (transpose_matrix layer_next.weights) = some propagated)
    (hz : cache_get (some c) (some ("z_" ++ Nat.repr i)) = some z_i)
    (hli : nn.layers[i]? = some layer_i)
    (hap : activation_derivative_for_layer ops layer_i z_i = some ap)
    (hmul : multiply_matrix propagated ap = some di) :
    backprop_hidden_step ops nn i c = some (cache_put c ("delta_" ++ Nat.repr i) di) := by
  unfold backprop_hidden_step
  simp only [hdn, hln, hprop, hz, hli, hap, hmul]

theorem backprop_step_invariant (ops : FloatOps) (nn : NeuralNetwork)
    (lay : Nat → Layer) (L N : Nat) (zfun : Nat → CMatrix) (dL : CMatrix)
    (hL : nn.num_layers = L + 1)
    (hlay : ∀ i, i < nn.num_layers → nn.layers[i]? = some (lay i))
    (hleak : ∀ i, i < nn.num_layers → 0 ≤ (lay i).leak_parameter)
    (hchain : ∀ i, i + 1 < nn.num_layers → (lay (i + 1)).weights.rows = (lay i).weights.cols)
    (hzdims : ∀ i, i < nn.num_layers → (zfun i).rows = N ∧ (zfun i).cols = (lay i).weights.cols)
    (i : Nat) (c : Cache) (hiL : i < L)
    (hclen : c.entries.length = HASH_MAP_SIZE)
    (hzs : ∀ j, j < nn.num_layers →
      cache_get (some c) (some ("z_" ++ Nat.repr j)) = some (zfun j))
    (hdnext : delta_inv ops nn lay N zfun dL L c (i + 1)) :
    ∃ di, bp_delta_spec ops nn zfun dL L i = some di ∧ di.rows = N ∧
      di.cols = (lay i).weights.cols ∧ di.wf ∧
      backprop_hidden_step ops nn i c = some (cache_put c ("delta_" ++ Nat.repr i) di) ∧
      (cache_put c ("delta_" ++ Nat.repr i) di).entries.length = HASH_MAP_SIZE ∧
      (∀ j, j < nn.num_layers →
        cache_get (some (cache_put c ("delta_" ++ Nat.repr i) di))
          (some ("z_" ++ Nat.repr j)) = some (zfun j)) ∧
      delta_inv ops nn lay N zfun dL L (cache_put c ("delta_" ++ Nat.repr i) di) i ∧
      (∀ j, delta_inv ops nn lay N zfun dL L c j → j ≠ i →
        delta_inv ops nn lay N zfun dL L (cache_put c ("delta_" ++ Nat.repr i) di) j) ∧
      (∃ dnext propagated ap,
        bp_delta_spec ops nn zfun dL L (i + 1) = some dnext ∧
        dot_matrix dnext (transpose_matrix (lay (i + 1)).weights) = some propagated ∧
        activation_derivative_for_layer ops (lay i) (zfun i) = some ap ∧
        multiply_matrix propagated ap = some di) := by
  obtain ⟨dnext, hdnspec, hdnr, hdnc, hdnwf, hdnget⟩ := hdnext
  have hiN : i < nn.num_layers := by omega
  have hi1N : i + 1 < nn.num_layers := by omega
  have hln := hlay (i + 1) hi1N
  have hli := hlay i hiN
  obtain ⟨hTr, hTc, _⟩ := transpose_matrix_dims (lay (i + 1)).weights
  have hcompat : dnext.cols = (transpose_matrix (lay (i + 1)).weights).rows := by
    rw [hTr, hdnc]
  obtain ⟨propagated, hprop, hpr, hpc, hpwf, _⟩ := dot_matrix_entries hcompat
  have hpc2 : propagated.cols = (lay i).weights.cols := by
    rw [hpc, hTc]
    exact hchain i hi1N
  obtain ⟨ap, hap⟩ := activation_derivative_some ops (lay i) (zfun i) (hleak i hiN)
  obtain ⟨hapr, hapc, hapwf⟩ := activation_derivative_dims hap
  obtain ⟨hzr, hzc⟩ := hzdims i hiN
  obtain ⟨di, hmul, hdir, hdic, hdiwf⟩ := @multiply_matrix_some propagated ap
    (by rw [hpr, hdnr, hapr, hzr]) (by rw [hpc2, hapc, hzc])
  have hspec : bp_delta_spec ops nn zfun dL L i = some di :=
    (bp_delta_spec_succ_step hiL hdnspec hln hli hprop hap).trans hmul
  have hstep := backprop_hidden_step_eq ops nn i c dnext (lay (i + 1)) propagated
    (zfun i) (lay i) ap di hdnget hln hprop (hzs i hiN) hli hap hmul
  refine ⟨di, hspec, by rw [hdir, hpr, hdnr], by rw [hdic, hpc2], hdiwf, hstep,
    ?_, ?_, ?_, ?_, dnext, propagated, ap, hdnspec, hprop, hap, hmul⟩
  · rw [cache_put_length]
    exact hclen
  · intro j hj
    rw [cache_get_put_ne _ _ (Ne.symm (z_key_ne_delta_key j i)) hclen]
    exact hzs j hj
  · exact ⟨di, hspec, by rw [hdir, hpr, hdnr], by rw [hdic, hpc2], hdiwf,
      by rw [cache_get_put_same _ _ _ hclen, copy_matrix_eq_self hdiwf]⟩
  · intro j hj hne
    obtain ⟨dj, h1, h2, h3, h4, h5⟩ := hj
    refine ⟨dj, h1, h2, h3, h4, ?_⟩
    rw [cache_get_put_ne _ _ (delta_key_inj (Ne.symm hne)) hclen]
    exact h5

theorem backprop_loop_invariant (ops : FloatOps) (nn : NeuralNetwork)
    (lay : Nat → Layer) (L N : Nat) (zfun : Nat → CMatrix) (dL : CMatrix)
    (hL : nn.num_layers = L + 1) (hsize : nn.num_layers ≤ SIZE_MAX)
    (hlay : ∀ i, i < nn.num_layers → nn.layers[i]? = some (lay i))
    (hleak : ∀ i, i < nn.num_layers → 0 ≤ (lay i).leak_parameter)
    (hchain : ∀ i, i + 1 < nn.num_layers → (lay (i + 1)).weights.rows = (lay i).weights.cols)
    (hzdims : ∀ i, i < nn.num_layers → (zfun i).rows = N ∧ (zfun i).cols = (lay i).weights.cols) :
    ∀ (i fuel : Nat) (c : Cache),
      i < L → i + 2 ≤ fuel →
      c.entries.length = HASH_MAP_SIZE →
      (∀ j, j < nn.num_layers →
        cache_get (some c) (some ("z_" ++ Nat.repr j)) = some (zfun j)) →
      (∀ j, i + 1 ≤ j → j ≤ L → delta_inv ops nn lay N zfun dL L c j) →
      ∃ cf tr, backprop_hidden_loop ops nn fuel i c = some (cf, tr) ∧
        cf.entries.length = HASH_MAP_SIZE ∧
        (∀ j, j ≤ L → delta_inv ops nn lay N zfun dL L cf j) ∧
        (∀ j, j ≤ i →
          ∃ dnext propagated ap dj,
            bp_delta_spec ops nn zfun dL L (j + 1) = some dnext ∧
            dot_matrix dnext (transpose_matrix (lay (j + 1)).weights) = some propagated ∧
            activation_derivative_for_layer ops (lay j) (zfun j) = some ap ∧
            multiply_matrix propagated ap = some dj ∧
            bp_delta_spec ops nn zfun dL L j = some dj) := by
  intro i
  induction i with
  | zero =>
    intro fuel c hiL hfuel hclen hzs hds
    obtain ⟨d0, hspec0, hr0, hc0, hwf0, hstep0, hlen2, hzs2, hdinv0, hdpres, drec⟩ :=
      backprop_step_invariant ops nn lay L N zfun dL hL hlay hleak hchain hzdims
        0 c hiL hclen hzs (hds 1 le_rfl (by omega))
    obtain ⟨f, rfl⟩ : ∃ f, fuel = f + 1 := ⟨fuel - 1, by omega⟩
    obtain ⟨f2, rfl⟩ : ∃ f2, f = f2 + 1 := ⟨f - 1, by omega⟩
    have hne : (0 : Nat) ≠ SIZE_MAX := by
      simp [SIZE_MAX]
    have hnext : (0 + SIZE_MAX) % (SIZE_MAX + 1) = SIZE_MAX := by
      rw [Nat.zero_add]
      exact Nat.mod_eq_of_lt (by omega)
    have hloop : backprop_hidden_loop ops nn (f2 + 1 + 1) 0 c =
        some (cache_put c ("delta_" ++ Nat.repr 0) d0, [0]) := by
      unfold backprop_hidden_loop
      rw [if_neg hne]
      simp only [hstep0, hnext, backprop_hidden_loop_sentinel]
    refine ⟨_, _, hloop, hlen2, ?_, ?_⟩
    · intro j hj
      by_cases hj0 : j = 0
      · subst hj0
        exact hdinv0
      · exact hdpres j (hds j (by omega) hj) hj0
    · intro j hj
      obtain rfl := Nat.le_zero.mp hj
      obtain ⟨dnext, prop, ap, h1, h2, h3, h4⟩ := drec
      exact ⟨dnext, prop, ap, d0, h1, h2, h3, h4, hspec0⟩
  | succ i ih =>
    intro fuel c hiL hfuel hclen hzs hds
    obtain ⟨di1, hspeci1, hri1, hci1, hwfi1, hstepi1, hlen2, hzs2, hdinvi1, hdpres, drec⟩ :=
      backprop_step_invariant ops nn lay L N zfun dL hL hlay hleak hchain hzdims
        (i + 1) c hiL hclen hzs (hds (i + 2) le_rfl (by omega))
    obtain ⟨f, rfl⟩ : ∃ f, fuel = f + 1 := ⟨fuel - 1, by omega⟩
    have hne : (i + 1 : Nat) ≠ SIZE_MAX := by
      have h1 : L + 1 ≤ SIZE_MAX := by
        rw [← hL]
        exact hsize
      omega
    have hnext : (i + 1 + SIZE_MAX) % (SIZE_MAX + 1) = i := by
      have h1 : L + 1 ≤ SIZE_MAX := by
        rw [← hL]
        exact hsize
      rw [size_t_pred (by omega) (by omega)]
      omega
    obtain ⟨cf, tr, hlooprec, hcflen, hcfinv, hcfrec⟩ :=
      ih f (cache_put c ("delta_" ++ Nat.repr (i + 1)) di1) (by omega) (by omega) hlen2 hzs2
        (fun j hj1 hj2 =>
          if hj : j = i + 1 then hj ▸ hdinvi1
          else hdpres j (hds j (by omega) hj2) hj)
    have hloop : backprop_hidden_loop ops nn (f + 1) (i + 1) c = some (cf, (i + 1) :: tr) := by
      unfold backprop_hidden_loop
      rw [if_neg hne]
      simp only [hstepi1, hnext, hlooprec]
    refine ⟨cf, (i + 1) :: tr, hloop, hcflen, hcfinv, ?_⟩
    intro j hj
    by_cases hji : j = i + 1
    · subst hji
      obtain ⟨dnext, prop, ap, h1, h2, h3, h4⟩ := drec
      exact ⟨dnext, prop, ap, di1, h1, h2, h3, h4, hspeci1⟩
    · exact hcfrec j (by omega)

/-! ### Claim theorems -/

/-- C7: for matrices with A.cols = B.rows, dot_matrix returns a new
A.rows x B.cols matrix whose (i, j) entry is the inner product of row i of A
with column j of B; with incompatible dimensions the call is a fatal
precondition failure (modelled as none). -/
theorem claim_C7_dot_matrix (A B : CMatrix) :
    (A.cols = B.rows →
      ∃ M, dot_matrix A B = some M ∧ M.rows = A.rows ∧ M.cols = B.cols ∧
        ∀ i j, i < A.rows → j < B.cols →
          M.entry i j = ∑ k ∈ Finset.range A.cols, A.entry i k * B.entry k j) ∧
    (A.cols ≠ B.rows → dot_matrix A B = none) := by
  constructor
  · intro h
    obtain ⟨M, h1, h2, h3, _, h5⟩ := dot_matrix_entries h
    exact ⟨M, h1, h2, h3, h5⟩
  · intro h
    unfold dot_matrix
    rw [if_neg h]

/-- Witness for C7 at the spec's own example matrices, plus a shape-mismatch
input hitting the fatal branch. -/
theorem claim_C7_dot_matrix_witness :
    (∃ M, dot_matrix (CMatrix.mk 2 2 [1, 2, 3, 4]) (CMatrix.mk 2 2 [5, 6, 7, 8]) = some M ∧
      M.rows = 2 ∧ M.cols = 2 ∧
      ∀ i j, i < 2 → j < 2 →
        M.entry i j = ∑ k ∈ Finset.range 2,
          (CMatrix.mk 2 2 [1, 2, 3, 4]).entry i k * (CMatrix.mk 2 2 [5, 6, 7, 8]).entry k j) ∧
    dot_matrix (CMatrix.mk 1 2 [1, 2]) (CMatrix.mk 1 1 [3]) = none :=
  ⟨(claim_C7_dot_matrix (CMatrix.mk 2 2 [1, 2, 3, 4]) (CMatrix.mk 2 2 [5, 6, 7, 8])).1 (by decide),
   (claim_C7_dot_matrix (CMatrix.mk 1 2 [1, 2]) (CMatrix.mk 1 1 [3])).2 (by decide)⟩

/-- C5: a put followed by a get on the same key yields a matrix equal to the
one stored, the value handed out is a freshly built deep copy (copy_matrix,
the model-level content of mutation independence: the C code returns a new
buffer, never a reference into the store), and a put on an existing key
replaces the stored matrix.  Pointer aliasing itself is outside the pure
model. -/
theorem claim_C5_cache_roundtrip (c : Cache) (k : String) (M M2 : CMatrix)
    (hlen : c.entries.length = HASH_MAP_SIZE) (hM : M.wf) (hM2 : M2.wf) :
    cache_get (some (cache_put c k M)) (some k) = some M ∧
    cache_get (some (cache_put c k M)) (some k) = some (copy_matrix M) ∧
    cache_get (some (cache_put (cache_put c k M) k M2)) (some k) = some M2 := by
  have hlen2 : (cache_put c k M).entries.length = HASH_MAP_SIZE := by
    rw [cache_put_length]
    exact hlen
  have h1 := cache_get_put_same c k M hlen
  have h2 := cache_get_put_same (cache_put c k M) k M2 hlen2
  rw [copy_matrix_eq_self hM] at h1
  rw [copy_matrix_eq_self hM2] at h2
  exact ⟨h1, by rw [h1, copy_matrix_eq_self hM], h2⟩

/-- Witness for C5 on a fresh cache and two concrete 1x1 matrices. -/
theorem claim_C5_cache_roundtrip_witness :
    cache_get (some (cache_put create_cache "k" (CMatrix.mk 1 1 [5]))) (some "k") =
        some (CMatrix.mk 1 1 [5]) ∧
    cache_get (some (cache_put create_cache "k" (CMatrix.mk 1 1 [5]))) (some "k") =
        some (copy_matrix (CMatrix.mk 1 1 [5])) ∧
    cache_get (some (cache_put (cache_put create_cache "k" (CMatrix.mk 1 1 [5])) "k"
        (CMatrix.mk 1 1 [7]))) (some "k") = some (CMatrix.mk 1 1 [7]) :=
  claim_C5_cache_roundtrip create_cache "k" (CMatrix.mk 1 1 [5]) (CMatrix.mk 1 1 [7])
    (by simp [create_cache]) (by decide) (by decide)

/-- C9: when no entry anywhere in the cache carries the key, cache_get
returns NULL (none) rather than aborting (the function contains no ASSERT),
and NULL cache or NULL key also return NULL; cache_get performs no write,
which in the embedding is reflected by it not producing any cache at all. -/
theorem claim_C9_cache_get_missing (c : Cache) (k : String)
    (habs : ∀ bucket ∈ c.entries, ∀ e ∈ bucket, e.key ≠ k) :
    cache_get (some c) (some k) = none ∧
    (∀ ko : Option String, cache_get none ko = none) ∧
    (∀ co : Option Cache, cache_get co none = none) := by
  refine ⟨?_, fun ko => by cases ko <;> rfl, fun co => by cases co <;> rfl⟩
  show bucket_find k (c.entries.getD (hash k) []) = none
  have hfind : ∀ b : List CacheEntry, (∀ e ∈ b, e.key ≠ k) → bucket_find k b = none := by
    intro b
    induction b with
    | nil => intro _; rfl
    | cons e rest ih =>
      intro hb
      unfold bucket_find
      rw [if_neg (hb e (List.mem_cons_self e rest))]
      exact ih (fun x hx => hb x (List.mem_cons_of_mem e hx))
  by_cases hlt : hash k < c.entries.length
  · have hget : c.entries.getD (hash k) [] = c.entries[hash k] := by
      rw [List.getD_eq_getElem?_getD, List.getElem?_eq_getElem hlt]
      rfl
    rw [hget]
    exact hfind _ (habs _ (List.getElem_mem hlt))
  · have hget : c.entries.getD (hash k) [] = [] := by
      rw [List.getD_eq_getElem?_getD, List.getElem?_eq_none (by omega)]
      rfl
    rw [hget]
    rfl

/-- Witness for C9 on a fresh cache and a key that was never stored. -/
theorem claim_C9_cache_get_missing_witness :
    cache_get (some create_cache) (some "missing") = none ∧
    (∀ ko : Option String, cache_get none ko = none) ∧
    (∀ co : Option Cache, cache_get co none = none) :=
  claim_C9_cache_get_missing create_cache "missing" (by
    intro b hb e he
    simp only [create_cache] at hb
    rw [List.eq_of_mem_replicate hb] at he
    simp at he)

/-- C8: an activation tag outside the declared enumeration (values 0..7)
takes the default switch branch in both passes: the forward pass produces
the identity activation (a copy of z, after a warning) and the backward
pass the all-ones identity derivative; no other value is substituted.  The
warning itself is logging and has no functional content in the model. -/
theorem claim_C8_unknown_activation_fallback (ops : FloatOps) (layer : Layer)
    (z : CMatrix) (h : 8 ≤ layer.activation_type) :
    feedforward_activation ops layer z = some (identity_activation z) ∧
    activation_derivative_for_layer ops layer z = some (identity_prime z) ∧
    identity_activation z = copy_matrix z := by
  obtain ⟨m, hm⟩ : ∃ m, layer.activation_type = m + 8 := ⟨layer.activation_type - 8, by omega⟩
  refine ⟨?_, ?_, rfl⟩
  · unfold feedforward_activation
    rw [hm]
    rfl
  · unfold activation_derivative_for_layer
    rw [hm]
    rfl

/-- Witness for C8 with the out-of-range tag 99. -/
theorem claim_C8_unknown_activation_fallback_witness :
    feedforward_activation ⟨fun x => x, fun x => x⟩
        ⟨CMatrix.mk 1 1 [0], CMatrix.mk 1 1 [0], 99, 0⟩ (CMatrix.mk 1 2 [3, 4]) =
      some (identity_activation (CMatrix.mk 1 2 [3, 4])) ∧
    activation_derivative_for_layer ⟨fun x => x, fun x => x⟩
        ⟨CMatrix.mk 1 1 [0], CMatrix.mk 1 1 [0], 99, 0⟩ (CMatrix.mk 1 2 [3, 4]) =
      some (identity_prime (CMatrix.mk 1 2 [3, 4])) ∧
    identity_activation (CMatrix.mk 1 2 [3, 4]) = copy_matrix (CMatrix.mk 1 2 [3, 4]) :=
  claim_C8_unknown_activation_fallback ⟨fun x => x, fun x => x⟩
    ⟨CMatrix.mk 1 1 [0], CMatrix.mk 1 1 [0], 99, 0⟩ (CMatrix.mk 1 2 [3, 4]) (by decide)

/-- C6 (amended): a softmax layer reaching the generic chain-rule machinery
gets the identity (all-ones) derivative from the default branch of
activation_derivative_for_layer, because the switch has no SOFTMAX case;
softmax_prime is never invoked by backpropagation. -/
theorem claim_C6_softmax_generic_derivative (ops : FloatOps) (layer : Layer) (z : CMatrix)
    (h : layer.activation_type = SOFTMAX) :
    activation_derivative_for_layer ops layer z = some (identity_prime z) := by
  unfold activation_derivative_for_layer
  rw [h]
  rfl

/-- Witness for the amended C6 at a concrete softmax layer. -/
theorem claim_C6_softmax_generic_derivative_witness :
    activation_derivative_for_layer ⟨fun _ => 1, fun _ => 0⟩
        ⟨CMatrix.mk 1 1 [0], CMatrix.mk 1 1 [0], SOFTMAX, 0⟩ (CMatrix.mk 1 2 [0, 0]) =
      some (identity_prime (CMatrix.mk 1 2 [0, 0])) :=
  claim_C6_softmax_generic_derivative ⟨fun _ => 1, fun _ => 0⟩
    ⟨CMatrix.mk 1 1 [0], CMatrix.mk 1 1 [0], SOFTMAX, 0⟩ (CMatrix.mk 1 2 [0, 0]) rfl

/-- C6 counterexample: the claim as stated is false — at this concrete
softmax layer and pre-activation, the derivative factor produced by the
code is not the elementwise a*(1-a) softmax derivative of the layer's
softmax output (it is the all-ones matrix instead). -/
theorem claim_C6_softmax_generic_derivative_counterexample :
    ¬ (activation_derivative_for_layer ⟨fun _ => 1, fun _ => 0⟩
         ⟨CMatrix.mk 1 1 [0], CMatrix.mk 1 1 [0], SOFTMAX, 0⟩ (CMatrix.mk 1 2 [0, 0]) =
       some (softmax_prime (softmax ⟨fun _ => 1, fun _ => 0⟩ (CMatrix.mk 1 2 [0, 0])))) := by
  intro h
  have h1 : activation_derivative_for_layer ⟨fun _ => 1, fun _ => 0⟩
      ⟨CMatrix.mk 1 1 [0], CMatrix.mk 1 1 [0], SOFTMAX, 0⟩ (CMatrix.mk 1 2 [0, 0]) =
      some (identity_prime (CMatrix.mk 1 2 [0, 0])) := rfl
  rw [h1, Option.some.injEq] at h
  have h2 : softmax ⟨fun _ => 1, fun _ => 0⟩ (CMatrix.mk 1 2 [0, 0]) =
      CMatrix.mk 1 2 [1/2, 1/2] := by
    norm_num [softmax, CMatrix.entry, List.range_succ, List.range'_one]
  rw [h2] at h
  have h3 : identity_prime (CMatrix.mk 1 2 [0, 0]) = CMatrix.mk 1 2 [1, 1] := by decide
  have h4 : softmax_prime (CMatrix.mk 1 2 [1/2, 1/2]) = CMatrix.mk 1 2 [1/4, 1/4] := by
    norm_num [softmax_prime, mapElems, List.range_succ]
  rw [h3, h4] at h
  simp only [CMatrix.mk.injEq, List.cons.injEq, true_and] at h
  norm_num at h

/-- C4: for a cache holding the previous activation (the stored "input" for
layer 0, "a_<i-1>" otherwise) and the layer's delta, calculate_weight_gradient
returns dot(transpose(a_prev), delta_i) — entrywise the sum over batch rows
of a_prev[r][p] * delta[r][q] — and calculate_bias_gradient returns the
1 x D_out row vector of column sums of delta_i.  Both accessors only read:
in the embedding neither produces a cache, mirroring the write-free C
bodies. -/
theorem claim_C4_gradient_accessors (cache : Cache) (i total : Nat) (hi : i < total)
    (a_prev delta_i : CMatrix)
    (ha : (if i = 0 then cache_get (some cache) (some "input")
           else cache_get (some cache) (some ("a_" ++ Nat.repr (i - 1)))) = some a_prev)
    (hd : cache_get (some cache) (some ("delta_" ++ Nat.repr i)) = some delta_i)
    (hdim : a_prev.rows = delta_i.rows) :
    calculate_weight_gradient cache i total = dot_matrix (transpose_matrix a_prev) delta_i ∧
    (∃ G, calculate_weight_gradient cache i total = some G ∧
      G.rows = a_prev.cols ∧ G.cols = delta_i.cols ∧
      ∀ p q, p < a_prev.cols → q < delta_i.cols →
        G.entry p q = ∑ r ∈ Finset.range delta_i.rows, a_prev.entry r p * delta_i.entry r q) ∧
    calculate_bias_gradient cache i total = some (sum_matrix_columns delta_i) ∧
    (sum_matrix_columns delta_i).rows = 1 ∧
    (sum_matrix_columns delta_i).cols = delta_i.cols ∧
    (∀ j, j < delta_i.cols →
      (sum_matrix_columns delta_i).entry 0 j =
        ∑ r ∈ Finset.range delta_i.rows, delta_i.entry r j) := by
  have hw : calculate_weight_gradient cache i total =
      dot_matrix (transpose_matrix a_prev) delta_i := by
    simp only [calculate_weight_gradient, hi, if_true, ha, hd]
  have hcompat : (transpose_matrix a_prev).cols = delta_i.rows := hdim
  obtain ⟨G, hG, hGr, hGc, _, hGe⟩ := dot_matrix_entries hcompat
  refine ⟨hw, ⟨G, by rw [hw, hG], hGr, hGc, ?_⟩, ?_, rfl, rfl, ?_⟩
  · intro p q hp hq
    rw [hGe p q hp hq, hcompat]
    refine Finset.sum_congr rfl ?_
    intro r hr
    rw [transpose_entry hp (hdim ▸ Finset.mem_range.mp hr)]
  · simp only [calculate_bias_gradient, hi, if_true, hd]
  · intro j hj
    exact sum_matrix_columns_entry hj

set_option maxRecDepth 40000 in
/-- Witness for C4 on a 1-layer cache holding concrete "input" and "delta_0"
entries. -/
theorem claim_C4_gradient_accessors_witness :
    (calculate_weight_gradient
        (cache_put (cache_put create_cache "input" (CMatrix.mk 1 1 [2])) "delta_0"
          (CMatrix.mk 1 1 [3])) 0 1 =
      dot_matrix (transpose_matrix (CMatrix.mk 1 1 [2])) (CMatrix.mk 1 1 [3])) ∧
    (∃ G, calculate_weight_gradient
        (cache_put (cache_put create_cache "input" (CMatrix.mk 1 1 [2])) "delta_0"
          (CMatrix.mk 1 1 [3])) 0 1 = some G ∧
      G.rows = 1 ∧ G.cols = 1 ∧
      ∀ p q, p < 1 → q < 1 →
        G.entry p q = ∑ r ∈ Finset.range 1,
          (CMatrix.mk 1 1 [2]).entry r p * (CMatrix.mk 1 1 [3]).entry r q) ∧
    calculate_bias_gradient
        (cache_put (cache_put create_cache "input" (CMatrix.mk 1 1 [2])) "delta_0"
          (CMatrix.mk 1 1 [3])) 0 1 = some (sum_matrix_columns (CMatrix.mk 1 1 [3])) ∧
    (sum_matrix_columns (CMatrix.mk 1 1 [3])).rows = 1 ∧
    (sum_matrix_columns (CMatrix.mk 1 1 [3])).cols = 1 ∧
    (∀ j, j < 1 →
      (sum_matrix_columns (CMatrix.mk 1 1 [3])).entry 0 j =
        ∑ r ∈ Finset.range 1, (CMatrix.mk 1 1 [3]).entry r j) :=
  claim_C4_gradient_accessors
    (cache_put (cache_put create_cache "input" (CMatrix.mk 1 1 [2])) "delta_0"
      (CMatrix.mk 1 1 [3])) 0 1 (by decide) (CMatrix.mk 1 1 [2]) (CMatrix.mk 1 1 [3])
    (by decide) (by decide) (by decide)

/-- C1: for a network whose last layer is softmax and loss kind CCE, the
output-delta stage of backpropagate stores under "delta_<L>" exactly the
elementwise difference y_hat - y_true, where y_hat is the cached "a_<L>";
the stage's result is independent of both the loss-gradient function and
the scalar ops used by activation derivatives, i.e. neither is applied on
this path. -/
theorem claim_C1_softmax_cce_shortcut (ops ops2 : FloatOps) (nn : NeuralNetwork)
    (y_true : CMatrix) (g g2 : CMatrix → CMatrix → Option CMatrix) (L : Nat)
    (hL : nn.num_layers = L + 1) (hsize : nn.num_layers ≤ SIZE_MAX)
    (last_layer : Layer) (hlayer : nn.layers[L]? = some last_layer)
    (hact : last_layer.activation_type = SOFTMAX)
    (y_hat : CMatrix)
    (hyhat : cache_get (some nn.cache) (some ("a_" ++ Nat.repr L)) = some y_hat)
    (hshape : y_hat.rows = y_true.rows ∧ y_hat.cols = y_true.cols)
    (hlen : nn.cache.entries.length = HASH_MAP_SIZE) :
    ∃ d, subtract_matrix y_hat y_true = some d ∧
      backprop_output_delta ops nn y_true CCE g =
        some (cache_put nn.cache ("delta_" ++ Nat.repr L) d) ∧
      cache_get (some (cache_put nn.cache ("delta_" ++ Nat.repr L) d))
        (some ("delta_" ++ Nat.repr L)) = some d ∧
      (∀ i j, i < y_hat.rows → j < y_hat.cols →
        d.entry i j = y_hat.entry i j - y_true.entry i j) ∧
      backprop_output_delta ops nn y_true CCE g =
        backprop_output_delta ops2 nn y_true CCE g2 := by
  have hli : (nn.num_layers + SIZE_MAX) % (SIZE_MAX + 1) = L := by
    rw [size_t_pred (by omega) hsize, hL]
    omega
  have hsub : subtract_matrix y_hat y_true =
      some (CMatrix.mk y_hat.rows y_hat.cols ((List.range (y_hat.rows * y_hat.cols)).map
        (fun idx => y_hat.data.getD idx 0 - y_true.data.getD idx 0))) := by
    unfold subtract_matrix
    rw [if_pos hshape]
  have hmain : ∀ (o : FloatOps) (gg : CMatrix → CMatrix → Option CMatrix),
      backprop_output_delta o nn y_true CCE gg =
        some (cache_put nn.cache ("delta_" ++ Nat.repr L)
          (CMatrix.mk y_hat.rows y_hat.cols ((List.range (y_hat.rows * y_hat.cols)).map
            (fun idx => y_hat.data.getD idx 0 - y_true.data.getD idx 0)))) := by
    intro o gg
    unfold backprop_output_delta
    simp only [hli, hlayer, hyhat]
    rw [if_pos (⟨hact, by trivial⟩ : _ ∧ _)]
    simp only [hsub]
  refine ⟨_, hsub, hmain ops g, ?_, ?_, (hmain ops g).trans (hmain ops2 g2).symm⟩
  · rw [cache_get_put_same nn.cache _ _ hlen, copy_matrix_eq_self (wf_mk_map _ _ _)]
  · intro i j hi hj
    rw [entry_mk_map _ _ _ hi hj]
    simp only [CMatrix.entry, hshape.2]

set_option maxRecDepth 40000 in
/-- Witness for C1: a single softmax layer with a cached prediction, a
loss-gradient function that always fails (showing it is never called), and
a second scalar-ops/gradient pair yielding the same result. -/
theorem claim_C1_softmax_cce_shortcut_witness :
    ∃ d, subtract_matrix (CMatrix.mk 1 2 [1, 0]) (CMatrix.mk 1 2 [0, 1]) = some d ∧
      backprop_output_delta ⟨fun _ => 1, fun _ => 0⟩
          ⟨[⟨CMatrix.mk 2 2 [1, 0, 0, 1], CMatrix.mk 1 2 [0, 0], SOFTMAX, 0⟩], 1,
            cache_put create_cache "a_0" (CMatrix.mk 1 2 [1, 0])⟩
          (CMatrix.mk 1 2 [0, 1]) CCE (fun _ _ => none) =
        some (cache_put (cache_put create_cache "a_0" (CMatrix.mk 1 2 [1, 0]))
          ("delta_" ++ Nat.repr 0) d) ∧
      cache_get (some (cache_put (cache_put create_cache "a_0" (CMatrix.mk 1 2 [1, 0]))
          ("delta_" ++ Nat.repr 0) d)) (some ("delta_" ++ Nat.repr 0)) = some d ∧
      (∀ i j, i < 1 → j < 2 →
        d.entry i j = (CMatrix.mk 1 2 [1, 0]).entry i j - (CMatrix.mk 1 2 [0, 1]).entry i j) ∧
      backprop_output_delta ⟨fun _ => 1, fun _ => 0⟩
          ⟨[⟨CMatrix.mk 2 2 [1, 0, 0, 1], CMatrix.mk 1 2 [0, 0], SOFTMAX, 0⟩], 1,
            cache_put create_cache "a_0" (CMatrix.mk 1 2 [1, 0])⟩
          (CMatrix.mk 1 2 [0, 1]) CCE (fun _ _ => none) =
        backprop_output_delta ⟨fun _ => 2, fun _ => 3⟩
          ⟨[⟨CMatrix.mk 2 2 [1, 0, 0, 1], CMatrix.mk 1 2 [0, 0], SOFTMAX, 0⟩], 1,
            cache_put create_cache "a_0" (CMatrix.mk 1 2 [1, 0])⟩
          (CMatrix.mk 1 2 [0, 1]) CCE (fun _ _ => some (CMatrix.mk 1 1 [99])) :=
  claim_C1_softmax_cce_shortcut ⟨fun _ => 1, fun _ => 0⟩ ⟨fun _ => 2, fun _ => 3⟩
    ⟨[⟨CMatrix.mk 2 2 [1, 0, 0, 1], CMatrix.mk 1 2 [0, 0], SOFTMAX, 0⟩], 1,
      cache_put create_cache "a_0" (CMatrix.mk 1 2 [1, 0])⟩
    (CMatrix.mk 1 2 [0, 1]) (fun _ _ => none) (fun _ _ => some (CMatrix.mk 1 1 [99])) 0
    rfl (by decide) ⟨CMatrix.mk 2 2 [1, 0, 0, 1], CMatrix.mk 1 2 [0, 0], SOFTMAX, 0⟩
    rfl rfl (CMatrix.mk 1 2 [1, 0]) (by decide) (by decide)
    (by rw [cache_put_length]; simp [create_cache])

/-- C10: whenever backpropagate succeeds on a network with at least one
layer, the hidden-layer loop visited exactly the indices L-1 down to 0 in
strictly descending order (num_layers - 1 iterations); the loop's stop
condition is the index wrapping around to SIZE_MAX, at which it returns
immediately; and for a single-layer network the loop body runs zero times
while "delta_0" is still stored by the output stage. -/
theorem claim_C10_backprop_loop_bounds (ops : FloatOps) (nn : NeuralNetwork)
    (y_true : CMatrix) (loss_type : Nat) (g : CMatrix → CMatrix → Option CMatrix)
    (h1 : 1 ≤ nn.num_layers) (hsize : nn.num_layers ≤ SIZE_MAX)
    (hlen : nn.cache.entries.length = HASH_MAP_SIZE)
    (c' : Cache) (tr : List Nat)
    (hsucc : backpropagate ops nn y_true loss_type g = some (c', tr)) :
    tr = (List.range (nn.num_layers - 1)).reverse ∧
    tr.length = nn.num_layers - 1 ∧
    List.Chain' (fun a b => b < a) tr ∧
    (∀ (fuel : Nat) (c : Cache),
      backprop_hidden_loop ops nn (fuel + 1) SIZE_MAX c = some (c, [])) ∧
    (nn.num_layers = 1 →
      tr = [] ∧ cache_get (some c') (some ("delta_" ++ Nat.repr 0)) ≠ none) := by
  have hli : (nn.num_layers + SIZE_MAX) % (SIZE_MAX + 1) = nn.num_layers - 1 :=
    size_t_pred h1 hsize
  unfold backpropagate at hsucc
  cases ho : backprop_output_delta ops nn y_true loss_type g with
  | none => rw [ho] at hsucc; simp at hsucc
  | some c1 =>
    simp only [ho, hli] at hsucc
    have htr : tr = (List.range (nn.num_layers - 1)).reverse := by
      by_cases hone : nn.num_layers = 1
      · rw [hone] at hsucc
        have hstart : (1 - 1 + SIZE_MAX) % (SIZE_MAX + 1) = SIZE_MAX := by
          have h0 : (1 : Nat) - 1 + SIZE_MAX = SIZE_MAX := by omega
          rw [h0]
          exact Nat.mod_eq_of_lt (by omega)
        rw [hstart] at hsucc
        have hsent : backprop_hidden_loop ops nn 1 SIZE_MAX c1 = some (c1, []) :=
          backprop_hidden_loop_sentinel ops nn 0 c1
        rw [hsent] at hsucc
        simp only [Option.some.injEq, Prod.mk.injEq] at hsucc
        rw [← hsucc.2, hone]
        rfl
      · have hstart : (nn.num_layers - 1 + SIZE_MAX) % (SIZE_MAX + 1) = nn.num_layers - 2 := by
          have := size_t_pred (n := nn.num_layers - 1) (by omega) (by omega)
          rw [this]
          omega
        rw [hstart] at hsucc
        have := backprop_hidden_loop_trace ops nn nn.num_layers (nn.num_layers - 2) c1 c' tr
          (by have h2 := hsize; simp only [SIZE_MAX] at h2 ⊢; omega) hsucc
        rw [this]
        have : nn.num_layers - 2 + 1 = nn.num_layers - 1 := by omega
        rw [this]
    refine ⟨htr, by rw [htr]; simp, ?_, ?_, ?_⟩
    · rw [htr]
      refine List.Pairwise.chain' ?_
      rw [List.pairwise_reverse]
      exact List.pairwise_lt_range _
    · intro fuel c
      exact backprop_hidden_loop_sentinel ops nn fuel c
    · intro hone
      constructor
      · rw [htr, hone]
        rfl
      · rw [hone] at hsucc
        have hstart : (1 - 1 + SIZE_MAX) % (SIZE_MAX + 1) = SIZE_MAX := by
          have h0 : (1 : Nat) - 1 + SIZE_MAX = SIZE_MAX := by omega
          rw [h0]
          exact Nat.mod_eq_of_lt (by omega)
        rw [hstart] at hsucc
        have hsent : backprop_hidden_loop ops nn 1 SIZE_MAX c1 = some (c1, []) :=
          backprop_hidden_loop_sentinel ops nn 0 c1
        rw [hsent] at hsucc
        simp only [Option.some.injEq, Prod.mk.injEq] at hsucc
        obtain ⟨d, hd⟩ := backprop_output_delta_put ho
        rw [← hsucc.1, hd, hli, hone]
        have h11 : (1 : Nat) - 1 = 0 := rfl
        rw [h11]
        rw [cache_get_put_same _ _ _ hlen]
        simp

set_option maxRecDepth 40000 in
/-- Witness for C10: running backpropagate end to end on a concrete
single-layer softmax+CCE network; the trace is empty and "delta_0" is
present. -/
theorem claim_C10_backprop_loop_bounds_witness :
    ∃ c' tr, backpropagate ⟨fun _ => 1, fun _ => 0⟩
        ⟨[⟨CMatrix.mk 2 2 [1, 0, 0, 1], CMatrix.mk 1 2 [0, 0], SOFTMAX, 0⟩], 1,
          cache_put create_cache "a_0" (CMatrix.mk 1 2 [1, 0])⟩
        (CMatrix.mk 1 2 [0, 1]) CCE (fun _ _ => none) = some (c', tr) ∧
      tr = (List.range 0).reverse ∧ tr.length = 0 ∧
      (1 = 1 → tr = [] ∧ cache_get (some c') (some ("delta_" ++ Nat.repr 0)) ≠ none) := by
  refine ⟨_, _, rfl, ?_⟩
  have h := claim_C10_backprop_loop_bounds ⟨fun _ => 1, fun _ => 0⟩
    ⟨[⟨CMatrix.mk 2 2 [1, 0, 0, 1], CMatrix.mk 1 2 [0, 0], SOFTMAX, 0⟩], 1,
      cache_put create_cache "a_0" (CMatrix.mk 1 2 [1, 0])⟩
    (CMatrix.mk 1 2 [0, 1]) CCE (fun _ _ => none) (by decide) (by decide)
    (by rw [cache_put_length]; simp [create_cache]) _ _ rfl
  exact ⟨h.1, h.2.1, fun _ => h.2.2.2.2 rfl⟩

/-- C3: on compatible shapes, feedforward stores a copy of the input under
"input" before the layer loop, then for each layer i in increasing order
computes z = dot(current, W_i) plus the bias row broadcast to every row
(the final conjunct gives the entrywise broadcast semantics), stores z
under "z_<i>", applies the layer's activation (by kind and leak parameter)
to obtain a, stores a under "a_<i>", and threads a forward; the returned
matrix is the last layer's post-activation (ownership of the returned copy
is a memory-level property outside the pure model; the model-level content
is that the return value and the cached "a_<L-1>" agree as values). -/
theorem claim_C3_feedforward (ops : FloatOps) (nn : NeuralNetwork) (input : CMatrix)
    (lay : Nat → Layer)
    (hlay : ∀ i, i < nn.num_layers → nn.layers[i]? = some (lay i))
    (hpos : 0 < nn.num_layers)
    (hwf : input.wf)
    (hlen : nn.cache.entries.length = HASH_MAP_SIZE)
    (hin : input.cols = (lay 0).weights.rows)
    (hchain : ∀ i, i + 1 < nn.num_layers → (lay (i + 1)).weights.rows = (lay i).weights.cols)
    (hbias : ∀ i, i < nn.num_layers →
      (lay i).bias.rows = 1 ∧ (lay i).bias.cols = (lay i).weights.cols)
    (hleak : ∀ i, i < nn.num_layers → 0 ≤ (lay i).leak_parameter) :
    ∃ cf out, feedforward ops nn input = some (cf, out) ∧
      cache_get (some cf) (some "input") = some input ∧
      (∀ i, i < nn.num_layers →
        ∃ z a, ff_z_spec ops nn input i = some z ∧
          ff_current_spec ops nn input (i + 1) = some a ∧
          feedforward_activation ops (lay i) z = some a ∧
          cache_get (some cf) (some ("z_" ++ Nat.repr i)) = some z ∧
          cache_get (some cf) (some ("a_" ++ Nat.repr i)) = some a) ∧
      ff_current_spec ops nn input nn.num_layers = some out ∧
      cache_get (some cf) (some ("a_" ++ Nat.repr (nn.num_layers - 1))) = some out ∧
      (∀ (m b M : CMatrix), add_bias_to_matrix m b = some M →
        ∀ r q, r < m.rows → q < m.cols → M.entry r q = m.entry r q + b.entry 0 q) := by
  have hl0 := hlay 0 hpos
  obtain ⟨cf, out, hloop, hout, hcflen, hpres, hentries⟩ :=
    feedforward_loop_invariant ops nn input lay hlay hchain hbias hleak
      nn.num_layers 0 (by omega)
      (cache_put nn.cache "input" (copy_matrix (copy_matrix input)))
      (copy_matrix input)
      (by rw [cache_put_length]; exact hlen)
      rfl
      (fun _ => hin)
  have hfeed : feedforward ops nn input = some (cf, out) := by
    unfold feedforward
    simp only [hl0]
    rw [if_pos hin, List.range_eq_range']
    exact hloop
  refine ⟨cf, out, hfeed, ?_, fun i hi => hentries i (Nat.zero_le i) hi, hout, ?_,
    fun m b M h r q hr hq => add_bias_entry h hr hq⟩
  · rw [hpres "input" (fun i _ _ => ⟨input_key_ne_z_key i, input_key_ne_a_key i⟩),
      cache_get_put_same _ _ _ hlen,
      copy_matrix_eq_self (copy_matrix_wf _),
      copy_matrix_eq_self (copy_matrix_wf _),
      copy_matrix_eq_self hwf]
  · obtain ⟨z, a, _, hspeca, _, _, hgeta⟩ :=
      hentries (nn.num_layers - 1) (Nat.zero_le _) (by omega)
    have hix : nn.num_layers - 1 + 1 = nn.num_layers := by omega
    rw [hix] at hspeca
    rw [hgeta]
    rw [hout] at hspeca
    exact hspeca.symm

set_option maxRecDepth 40000 in
/-- Witness for C3: a single identity layer evaluated end to end. -/
theorem claim_C3_feedforward_witness :
    ∃ cf out, feedforward ⟨fun _ => 1, fun _ => 0⟩
        ⟨[⟨CMatrix.mk 1 1 [2], CMatrix.mk 1 1 [3], IDENTITY, 0⟩], 1, create_cache⟩
        (CMatrix.mk 1 1 [5]) = some (cf, out) ∧
      cache_get (some cf) (some "input") = some (CMatrix.mk 1 1 [5]) ∧
      (∀ i, i < 1 →
        ∃ z a, ff_z_spec ⟨fun _ => 1, fun _ => 0⟩
            ⟨[⟨CMatrix.mk 1 1 [2], CMatrix.mk 1 1 [3], IDENTITY, 0⟩], 1, create_cache⟩
            (CMatrix.mk 1 1 [5]) i = some z ∧
          ff_current_spec ⟨fun _ => 1, fun _ => 0⟩
            ⟨[⟨CMatrix.mk 1 1 [2], CMatrix.mk 1 1 [3], IDENTITY, 0⟩], 1, create_cache⟩
            (CMatrix.mk 1 1 [5]) (i + 1) = some a ∧
          feedforward_activation ⟨fun _ => 1, fun _ => 0⟩
            ⟨CMatrix.mk 1 1 [2], CMatrix.mk 1 1 [3], IDENTITY, 0⟩ z = some a ∧
          cache_get (some cf) (some ("z_" ++ Nat.repr i)) = some z ∧
          cache_get (some cf) (some ("a_" ++ Nat.repr i)) = some a) ∧
      ff_current_spec ⟨fun _ => 1, fun _ => 0⟩
        ⟨[⟨CMatrix.mk 1 1 [2], CMatrix.mk 1 1 [3], IDENTITY, 0⟩], 1, create_cache⟩
        (CMatrix.mk 1 1 [5]) 1 = some out ∧
      cache_get (some cf) (some ("a_" ++ Nat.repr 0)) = some out ∧
      (∀ (m b M : CMatrix), add_bias_to_matrix m b = some M →
        ∀ r q, r < m.rows → q < m.cols → M.entry r q = m.entry r q + b.entry 0 q) :=
  claim_C3_feedforward ⟨fun _ => 1, fun _ => 0⟩
    ⟨[⟨CMatrix.mk 1 1 [2], CMatrix.mk 1 1 [3], IDENTITY, 0⟩], 1, create_cache⟩
    (CMatrix.mk 1 1 [5])
    (fun _ => ⟨CMatrix.mk 1 1 [2], CMatrix.mk 1 1 [3], IDENTITY, 0⟩)
    (by intro i hi; have hi' : i < 1 := hi; obtain rfl := Nat.lt_one_iff.mp hi'; rfl)
    (by decide) (by decide) (by simp [create_cache]) (by decide)
    (by intro i hi; have hi' : i + 1 < 1 := hi; omega)
    (by intro i hi; exact ⟨rfl, rfl⟩)
    (by intro i hi; exact le_rfl)

/-- C2: with num_layers = L + 1 >= 2, a cache populated by a prior
feedforward (cached pre-activations zfun with matching shapes), and a
successful output-delta stage that stored dL under "delta_<L>",
backpropagate succeeds, and for every hidden index i from L-1 down to 0 the
stored delta_i satisfies delta_i = dot(delta_{i+1}, transpose(W_{i+1}))
elementwise-multiplied by the activation derivative of layer i on the
cached z_i; afterwards every index 0..L has a "delta_<i>" entry. -/
theorem claim_C2_backprop_hidden_layers (ops : FloatOps) (nn : NeuralNetwork)
    (y_true : CMatrix) (loss_type : Nat) (g : CMatrix → CMatrix → Option CMatrix)
    (lay : Nat → Layer) (L N : Nat) (zfun : Nat → CMatrix) (dL : CMatrix)
    (hL : nn.num_layers = L + 1) (h2 : 2 ≤ nn.num_layers) (hsize : nn.num_layers ≤ SIZE_MAX)
    (hlay : ∀ i, i < nn.num_layers → nn.layers[i]? = some (lay i))
    (hlen : nn.cache.entries.length = HASH_MAP_SIZE)
    (hleak : ∀ i, i < nn.num_layers → 0 ≤ (lay i).leak_parameter)
    (hchain : ∀ i, i + 1 < nn.num_layers → (lay (i + 1)).weights.rows = (lay i).weights.cols)
    (hz : ∀ i, i < nn.num_layers →
      cache_get (some nn.cache) (some ("z_" ++ Nat.repr i)) = some (zfun i))
    (hzdims : ∀ i, i < nn.num_layers → (zfun i).rows = N ∧ (zfun i).cols = (lay i).weights.cols)
    (hstage1 : backprop_output_delta ops nn y_true loss_type g =
      some (cache_put nn.cache ("delta_" ++ Nat.repr L) dL))
    (hdL : dL.rows = N ∧ dL.cols = (lay L).weights.cols) (hdLwf : dL.wf) :
    ∃ cf tr, backpropagate ops nn y_true loss_type g = some (cf, tr) ∧
      bp_delta_spec ops nn zfun dL L L = some dL ∧
      (∀ i, i ≤ L → ∃ di, bp_delta_spec ops nn zfun dL L i = some di ∧
        cache_get (some cf) (some ("delta_" ++ Nat.repr i)) = some di) ∧
      (∀ i, i < L → ∃ dnext propagated ap di,
        bp_delta_spec ops nn zfun dL L (i + 1) = some dnext ∧
        dot_matrix dnext (transpose_matrix (lay (i + 1)).weights) = some propagated ∧
        activation_derivative_for_layer ops (lay i) (zfun i) = some ap ∧
        multiply_matrix propagated ap = some di ∧
        bp_delta_spec ops nn zfun dL L i = some di) := by
  have hli : (nn.num_layers + SIZE_MAX) % (SIZE_MAX + 1) = L := by
    rw [size_t_pred (by omega) hsize, hL]
    omega
  have hstart : (L + SIZE_MAX) % (SIZE_MAX + 1) = L - 1 :=
    size_t_pred (by omega) (by simp only [SIZE_MAX] at hsize ⊢; omega)
  have hc1len : (cache_put nn.cache ("delta_" ++ Nat.repr L) dL).entries.length =
      HASH_MAP_SIZE := by
    rw [cache_put_length]
    exact hlen
  have hzs1 : ∀ j, j < nn.num_layers →
      cache_get (some (cache_put nn.cache ("delta_" ++ Nat.repr L) dL))
        (some ("z_" ++ Nat.repr j)) = some (zfun j) := by
    intro j hj
    rw [cache_get_put_ne _ _ (Ne.symm (z_key_ne_delta_key j L)) hlen]
    exact hz j hj
  have hds1 : ∀ j, (L - 1) + 1 ≤ j → j ≤ L →
      delta_inv ops nn lay N zfun dL L (cache_put nn.cache ("delta_" ++ Nat.repr L) dL) j := by
    intro j hj1 hj2
    have hjL : j = L := by omega
    subst hjL
    exact ⟨dL, bp_delta_spec_last ops nn zfun dL j, hdL.1, hdL.2, hdLwf,
      by rw [cache_get_put_same _ _ _ hlen, copy_matrix_eq_self hdLwf]⟩
  obtain ⟨cf, tr, hloop, hcflen, hinv, hrec⟩ :=
    backprop_loop_invariant ops nn lay L N zfun dL hL hsize hlay hleak hchain hzdims
      (L - 1) nn.num_layers (cache_put nn.cache ("delta_" ++ Nat.repr L) dL)
      (by omega) (by omega) hc1len hzs1 hds1
  have hbp : backpropagate ops nn y_true loss_type g = some (cf, tr) := by
    unfold backpropagate
    simp only [hstage1, hli, hstart]
    exact hloop
  refine ⟨cf, tr, hbp, bp_delta_spec_last ops nn zfun dL L, ?_, ?_⟩
  · intro i hi
    obtain ⟨di, h1, _, _, _, h5⟩ := hinv i hi
    exact ⟨di, h1, h5⟩
  · intro i hiL2
    exact hrec i (by omega)

set_option maxRecDepth 100000 in
/-- Witness for C2: a concrete two-layer network (identity then softmax)
with a cache holding z_0, z_1 and a_1; the output stage is evaluated by
reduction and the full backpropagation run is checked against the
spec-side recurrence. -/
theorem claim_C2_backprop_hidden_layers_witness :
    ∃ dL cf tr,
      backprop_output_delta ⟨fun _ => 1, fun _ => 0⟩
          ⟨[⟨CMatrix.mk 1 1 [1], CMatrix.mk 1 1 [0], IDENTITY, 0⟩,
            ⟨CMatrix.mk 1 1 [1], CMatrix.mk 1 1 [0], SOFTMAX, 0⟩], 2,
            cache_put (cache_put (cache_put create_cache "z_0" (CMatrix.mk 1 1 [0]))
              "z_1" (CMatrix.mk 1 1 [0])) "a_1" (CMatrix.mk 1 1 [1])⟩
          (CMatrix.mk 1 1 [1]) CCE (fun _ _ => none) =
        some (cache_put (cache_put (cache_put (cache_put create_cache "z_0"
            (CMatrix.mk 1 1 [0])) "z_1" (CMatrix.mk 1 1 [0])) "a_1" (CMatrix.mk 1 1 [1]))
          ("delta_" ++ Nat.repr 1) dL) ∧
      backpropagate ⟨fun _ => 1, fun _ => 0⟩
          ⟨[⟨CMatrix.mk 1 1 [1], CMatrix.mk 1 1 [0], IDENTITY, 0⟩,
            ⟨CMatrix.mk 1 1 [1], CMatrix.mk 1 1 [0], SOFTMAX, 0⟩], 2,
            cache_put (cache_put (cache_put create_cache "z_0" (CMatrix.mk 1 1 [0]))
              "z_1" (CMatrix.mk 1 1 [0])) "a_1" (CMatrix.mk 1 1 [1])⟩
          (CMatrix.mk 1 1 [1]) CCE (fun _ _ => none) = some (cf, tr) ∧
      (∀ i, i ≤ 1 → ∃ di,
        bp_delta_spec ⟨fun _ => 1, fun _ => 0⟩
          ⟨[⟨CMatrix.mk 1 1 [1], CMatrix.mk 1 1 [0], IDENTITY, 0⟩,
            ⟨CMatrix.mk 1 1 [1], CMatrix.mk 1 1 [0], SOFTMAX, 0⟩], 2,
            cache_put (cache_put (cache_put create_cache "z_0" (CMatrix.mk 1 1 [0]))
              "z_1" (CMatrix.mk 1 1 [0])) "a_1" (CMatrix.mk 1 1 [1])⟩
          (fun _ => CMatrix.mk 1 1 [0]) dL 1 i = some di ∧
        cache_get (some cf) (some ("delta_" ++ Nat.repr i)) = some di) := by
  obtain ⟨cf, tr, hbp, _, hdeltas, _⟩ :=
    claim_C2_backprop_hidden_layers ⟨fun _ => 1, fun _ => 0⟩
      ⟨[⟨CMatrix.mk 1 1 [1], CMatrix.mk 1 1 [0], IDENTITY, 0⟩,
        ⟨CMatrix.mk 1 1 [1], CMatrix.mk 1 1 [0], SOFTMAX, 0⟩], 2,
        cache_put (cache_put (cache_put create_cache "z_0" (CMatrix.mk 1 1 [0]))
          "z_1" (CMatrix.mk 1 1 [0])) "a_1" (CMatrix.mk 1 1 [1])⟩
      (CMatrix.mk 1 1 [1]) CCE (fun _ _ => none)
      (fun j => if j = 0 then ⟨CMatrix.mk 1 1 [1], CMatrix.mk 1 1 [0], IDENTITY, 0⟩
        else ⟨CMatrix.mk 1 1 [1], CMatrix.mk 1 1 [0], SOFTMAX, 0⟩)
      1 1 (fun _ => CMatrix.mk 1 1 [0]) _
      rfl (by decide) (by decide)
      (by intro i hi; have hi' : i < 2 := hi; interval_cases i <;> rfl)
      (by rw [cache_put_length, cache_put_length, cache_put_length]; simp [create_cache])
      (by intro i hi; have hi' : i < 2 := hi; interval_cases i <;> exact le_rfl)
      (by intro i hi; have hi' : i + 1 < 2 := hi; have h0 : i = 0 := by omega;
          subst h0; rfl)
      (by intro i hi; have hi' : i < 2 := hi; interval_cases i <;> decide)
      (by intro i hi; have hi' : i < 2 := hi; interval_cases i <;> exact ⟨rfl, rfl⟩)
      rfl (by exact ⟨rfl, rfl⟩) (by decide)
  exact ⟨_, cf, tr, rfl, hbp, hdeltas⟩

end NNC
